import Mathlib

/-!
Verification of the jigsaw dependency-graph / topological-sort /
composite-execution core.

The Python sources (`jigsaw/computation_graph.py`, `jigsaw/composite.py`,
`jigsaw/piece.py`) are embedded shallowly:

* a Python `dict` with insertion order is an association list;
* `build_dependency_graph` and `topological_sort` become total Lean
  functions returning `Except`, where `.error` carries exactly the payload
  of the raised exception (`OutputRedefinitionError` carries the index set
  and the redefined output name, `CyclicDependencyError` carries the index
  set);
* the `while` loop of `topological_sort` becomes a fuel recursion with
  fuel `n`; a pass runs only while `len(sorting) < n` and every executed
  pass appends at least one index before the recursive call, so after `k`
  productive passes `len(sorting) ≥ k` — fuel `n` is reached only when
  `len(sorting) ≥ n`, where the Python loop also stops, hence the fuel
  version returns exactly the state the `while` loop returns.
-/

namespace Jigsaw

/-- `IOSpec = Tuple[InputSpec, OutputSpec]` from `computation_graph.py`:
the (inputs, outputs) name lists of one unit. -/
abbrev IOSpec := List String × List String

/-- A Python `Dict[int, Set[int]]` in insertion order: the dependency
graph mapping a unit index to the set of indices it depends on. -/
abbrev DepGraph := List (Nat × Finset Nat)

/-- Lookup in an insertion-ordered association list, as Python `d.get(k)` /
`k in d` do (first matching key; keys of a Python dict are unique). -/
def lookupA {α : Type} (ps : List (String × α)) (k : String) : Option α :=
  (ps.find? (fun p => p.1 == k)).map (fun p => p.2)

/-- One unit's output scan from `build_dependency_graph` (lines 42-47):
`producers.setdefault(output_name, component_idx)` followed by the
redefinition check `if existing_idx != component_idx: raise
OutputRedefinitionError({existing_idx, component_idx}, output_name)`. -/
def addOutputs (idx : Nat) (producers : List (String × Nat)) :
    List String → Except (Finset Nat × String) (List (String × Nat))
  | [] => .ok producers
  | nm :: rest =>
    match lookupA producers nm with
    | some existing =>
      if existing ≠ idx then .error ({existing, idx}, nm)
      else addOutputs idx producers rest
    | none => addOutputs idx (producers ++ [(nm, idx)]) rest

/-- `consumers[input_name].append(component_idx)` on the
`defaultdict(list)` of `build_dependency_graph` (line 48-49). -/
def addConsumer (cs : List (String × List Nat)) (nm : String) (idx : Nat) :
    List (String × List Nat) :=
  if (cs.find? (fun p => p.1 == nm)).isSome then
    cs.map (fun p => if p.1 == nm then (p.1, p.2 ++ [idx]) else p)
  else cs ++ [(nm, [idx])]

/-- The inner `for input_name in inputs` loop of `build_dependency_graph`. -/
def addConsumers (idx : Nat) (cs : List (String × List Nat)) :
    List String → List (String × List Nat)
  | [] => cs
  | nm :: rest => addConsumers idx (addConsumer cs nm idx) rest

/-- The `for component_idx, (inputs, outputs) in enumerate(...)` scan of
`build_dependency_graph` (lines 41-49): outputs first (may raise), then
inputs. -/
def scanUnits (producers : List (String × Nat)) (consumers : List (String × List Nat))
    (idx : Nat) :
    List IOSpec → Except (Finset Nat × String) (List (String × Nat) × List (String × List Nat))
  | [] => .ok (producers, consumers)
  | (ins, outs) :: rest =>
    match addOutputs idx producers outs with
    | .error e => .error e
    | .ok ps => scanUnits ps (addConsumers idx consumers ins) (idx + 1) rest

/-- `dependency_graph = {idx: set() for idx, _ in enumerate(...)}`. -/
def emptyGraph (n : Nat) : DepGraph :=
  (List.range n).map (fun i => (i, (∅ : Finset Nat)))

/-- `dependency_graph[consumer].add(producer)`. -/
def graphAdd (g : DepGraph) (consumer producer : Nat) : DepGraph :=
  g.map (fun p => if p.1 = consumer then (p.1, insert producer p.2) else p)

/-- The final edge-recording loop of `build_dependency_graph` (lines
54-59): for each consumers entry, look up the producer of the input name
and, when it exists, add one edge per recorded consumer. An input with no
producer adds nothing. -/
def addAllEdges (producers : List (String × Nat)) (g : DepGraph) :
    List (String × List Nat) → DepGraph
  | [] => g
  | (nm, consumerIdxs) :: rest =>
    match lookupA producers nm with
    | some producer =>
      addAllEdges producers (consumerIdxs.foldl (fun g c => graphAdd g c producer) g) rest
    | none => addAllEdges producers g rest

/-- `build_dependency_graph` from `computation_graph.py` (lines 29-60).
`.error (indices, name)` is the raised `OutputRedefinitionError` with its
`indices` set and `redefined_output` name. -/
def build_dependency_graph (specs : List IOSpec) :
    Except (Finset Nat × String) DepGraph :=
  match scanUnits [] [] 0 specs with
  | .error e => .error e
  | .ok (producers, consumers) =>
    .ok (addAllEdges producers (emptyGraph specs.length) consumers)

/-- One full pass of `topological_sort` (lines 77-81): iterate the graph
entries in insertion order; append index `i` when it is unresolved and
`len(deps.difference(sorting)) == 0`. -/
def sweepGo : List (Nat × Finset Nat) → List Nat → List Bool → List Nat × List Bool
  | [], sorting, resolved => (sorting, resolved)
  | (i, deps) :: rest, sorting, resolved =>
    if resolved.getD i false = false ∧ deps \ sorting.toFinset = ∅ then
      sweepGo rest (sorting ++ [i]) (resolved.set i true)
    else sweepGo rest sorting resolved

/-- The `while len(sorting) < len(dependency_graph)` loop of
`topological_sort` (lines 76-84), with fuel: a pass runs only while the
sort is incomplete, and an unproductive pass breaks out of the loop. -/
def topoLoop (g : DepGraph) : Nat → List Nat → List Bool → List Nat × List Bool
  | 0, sorting, resolved => (sorting, resolved)
  | fuel + 1, sorting, resolved =>
    if sorting.length < g.length then
      if sorting.length < (sweepGo g sorting resolved).1.length then
        topoLoop g fuel (sweepGo g sorting resolved).1 (sweepGo g sorting resolved).2
      else sweepGo g sorting resolved
    else (sorting, resolved)

/-- `topological_sort` from `computation_graph.py` (lines 63-90).
`.error indices` is the raised `CyclicDependencyError` with its
`indices = set(dependency_graph.keys()).difference(sorting)`. -/
def topological_sort (g : DepGraph) : Except (Finset Nat) (List Nat) :=
  let st := topoLoop g g.length [] (List.replicate g.length false)
  if st.1.length < g.length then
    .error ((g.map Prod.fst).toFinset \ st.1.toFinset)
  else .ok st.1

/-- The documented invariant of `topological_sort`'s argument ("every
index in range [0, n) appears as a key", built in index order by
`build_dependency_graph`): the dict's keys, in insertion order, are
exactly `0, 1, ..., n-1`. -/
def WF (g : DepGraph) : Prop := g.map Prod.fst = List.range g.length

/-- The dependency set the graph records for index `i` (the dict value at
key `i`; `∅` when `i` is not a key). -/
def depsOf (g : DepGraph) (i : Nat) : Finset Nat :=
  ((g.find? (fun p => p.1 = i)).map (fun p => p.2)).getD ∅

/-- A sequence `s` is a valid topological order of `g`: a permutation of
the graph's keys in which, for every recorded edge (consumer `p.1`
depends on producer `d`), the producer appears strictly earlier. -/
def ValidOrder (g : DepGraph) (s : List Nat) : Prop :=
  s.Perm (g.map Prod.fst) ∧ ∀ p ∈ g, ∀ d ∈ p.2, s.indexOf d < s.indexOf p.1

lemma getD_set_ne {α : Type} {r : List α} {i j : Nat} {b d : α} (h : j ≠ i) :
    (r.set i b).getD j d = r.getD j d := by
  by_cases hj : j < r.length
  · rw [List.getD_eq_getElem _ _ (by simpa using hj), List.getD_eq_getElem _ _ hj,
      List.getElem_set_ne (by omega)]
  · rw [List.getD_eq_default _ _ (by simpa using Nat.le_of_not_lt hj),
      List.getD_eq_default _ _ (Nat.le_of_not_lt hj)]

lemma getD_set_self {α : Type} {r : List α} {i : Nat} {b d : α} (h : i < r.length) :
    (r.set i b).getD i d = b := by
  rw [List.getD_eq_getElem _ _ (by simpa using h), List.getElem_set_self]

lemma sweepGo_cons_pos {i : Nat} {deps : Finset Nat} {tl : List (Nat × Finset Nat)}
    {s : List Nat} {r : List Bool}
    (hc : r.getD i false = false ∧ deps \ s.toFinset = ∅) :
    sweepGo ((i, deps) :: tl) s r = sweepGo tl (s ++ [i]) (r.set i true) := by
  rw [sweepGo, if_pos hc]

lemma sweepGo_cons_neg {i : Nat} {deps : Finset Nat} {tl : List (Nat × Finset Nat)}
    {s : List Nat} {r : List Bool}
    (hc : ¬(r.getD i false = false ∧ deps \ s.toFinset = ∅)) :
    sweepGo ((i, deps) :: tl) s r = sweepGo tl s r := by
  rw [sweepGo, if_neg hc]

/-- In a graph with nodup keys, `find?` at a present key returns exactly
that entry. -/
lemma find?_of_mem_nodupKeys {g : DepGraph} (hnd : (g.map Prod.fst).Nodup)
    {k : Nat} {v : Finset Nat} (hm : (k, v) ∈ g) :
    g.find? (fun p => p.1 = k) = some (k, v) := by
  induction g with
  | nil => cases hm
  | cons hd tl ih =>
    simp only [List.map_cons, List.nodup_cons] at hnd
    rcases List.mem_cons.mp hm with rfl | hm'
    · simp [List.find?]
    · have hne : hd.1 ≠ k := by
        intro h
        exact hnd.1 (h ▸ (List.mem_map.mpr ⟨(k, v), hm', rfl⟩))
      rw [List.find?_cons_of_neg _ (by simpa using hne)]
      exact ih hnd.2 hm'

lemma WF_nodup_keys {g : DepGraph} (hwf : WF g) : (g.map Prod.fst).Nodup := by
  rw [hwf]; exact List.nodup_range _

/-- Under the key invariant, every entry of the graph has a key below `n`
and its value is what `depsOf` reads back. -/
lemma WF_entries {g : DepGraph} (hwf : WF g) {p : Nat × Finset Nat} (hp : p ∈ g) :
    p.1 < g.length ∧ depsOf g p.1 = p.2 := by
  constructor
  · have : p.1 ∈ g.map Prod.fst := List.mem_map.mpr ⟨p, hp, rfl⟩
    rw [hwf] at this
    exact List.mem_range.mp this
  · unfold depsOf
    rw [find?_of_mem_nodupKeys (WF_nodup_keys hwf) (by simpa using hp)]
    rfl

/-- The sweep only appends: its result is the input sorting followed by a
sublist of the scanned keys (hence, for a well-formed graph, new indices
are appended in ascending key order). -/
lemma sweepGo_append (L : List (Nat × Finset Nat)) (s : List Nat) (r : List Bool) :
    ∃ t, (sweepGo L s r).1 = s ++ t ∧ t.Sublist (L.map Prod.fst) := by
  induction L generalizing s r with
  | nil => exact ⟨[], by simp [sweepGo]⟩
  | cons hd tl ih =>
    obtain ⟨i, deps⟩ := hd
    by_cases hc : r.getD i false = false ∧ deps \ s.toFinset = ∅
    · obtain ⟨t, ht, hsub⟩ := ih (s ++ [i]) (r.set i true)
      refine ⟨i :: t, ?_, ?_⟩
      · rw [sweepGo_cons_pos hc, ht]; simp
      · simpa using List.Sublist.cons₂ i hsub
    · obtain ⟨t, ht, hsub⟩ := ih s r
      refine ⟨t, ?_, ?_⟩
      · rw [sweepGo_cons_neg hc]; exact ht
      · exact hsub.trans (List.sublist_cons_self _ _)

lemma sweepGo_length_le (L : List (Nat × Finset Nat)) (s : List Nat) (r : List Bool) :
    s.length ≤ (sweepGo L s r).1.length := by
  obtain ⟨t, ht, _⟩ := sweepGo_append L s r
  simp [ht]

/-- If a sweep adds nothing, it changes nothing, and every scanned entry
failed the eligibility test against the (unchanged) sorting. -/
lemma sweepGo_stall (L : List (Nat × Finset Nat)) (s : List Nat) (r : List Bool)
    (h : (sweepGo L s r).1.length ≤ s.length) :
    sweepGo L s r = (s, r) ∧
      ∀ p ∈ L, ¬(r.getD p.1 false = false ∧ p.2 \ s.toFinset = ∅) := by
  induction L generalizing s r with
  | nil => exact ⟨rfl, by simp⟩
  | cons hd tl ih =>
    obtain ⟨i, deps⟩ := hd
    by_cases hc : r.getD i false = false ∧ deps \ s.toFinset = ∅
    · exfalso
      have h2 := sweepGo_length_le tl (s ++ [i]) (r.set i true)
      rw [sweepGo_cons_pos hc] at h
      simp at h2
      omega
    · rw [sweepGo_cons_neg hc] at h ⊢
      obtain ⟨h1, h2⟩ := ih s r h
      refine ⟨h1, ?_⟩
      intro p hp
      rcases List.mem_cons.mp hp with rfl | hp'
      · exact hc
      · exact h2 p hp'

/-- If some scanned entry is eligible, the sweep makes progress. -/
lemma sweepGo_progress (L : List (Nat × Finset Nat)) (s : List Nat) (r : List Bool)
    (h : ∃ p ∈ L, r.getD p.1 false = false ∧ p.2 \ s.toFinset = ∅) :
    s.length < (sweepGo L s r).1.length := by
  by_contra hle
  obtain ⟨_, h2⟩ := sweepGo_stall L s r (Nat.le_of_not_lt hle)
  obtain ⟨p, hp, hc⟩ := h
  exact h2 p hp hc

/-- Invariant of the `topological_sort` loop state. -/
structure Inv (g : DepGraph) (s : List Nat) (r : List Bool) : Prop where
  rlen : r.length = g.length
  mem : ∀ i, r.getD i false = true ↔ i ∈ s
  nodup : s.Nodup
  bound : ∀ i ∈ s, i < g.length
  edge : ∀ i ∈ s, ∀ d ∈ depsOf g i, d ∈ s ∧ s.indexOf d < s.indexOf i

lemma Inv.init (g : DepGraph) : Inv g [] (List.replicate g.length false) := by
  refine ⟨by simp, ?_, List.nodup_nil, by simp, by simp⟩
  intro i
  constructor
  · intro h
    by_cases hi : i < g.length
    · rw [List.getD_eq_getElem _ _ (by simpa using hi)] at h
      simp at h
    · rw [List.getD_eq_default _ _ (by simpa using Nat.le_of_not_lt hi)] at h
      cases h
  · intro h; cases h

lemma sweepGo_inv {g : DepGraph} {L : List (Nat × Finset Nat)} {s : List Nat} {r : List Bool}
    (hL : ∀ p ∈ L, p.1 < g.length ∧ depsOf g p.1 = p.2)
    (hinv : Inv g s r) : Inv g (sweepGo L s r).1 (sweepGo L s r).2 := by
  induction L generalizing s r with
  | nil => exact hinv
  | cons hd tl ih =>
    obtain ⟨i, deps⟩ := hd
    obtain ⟨hilt, hideps⟩ := hL (i, deps) (List.mem_cons_self _ _)
    by_cases hc : r.getD i false = false ∧ deps \ s.toFinset = ∅
    · have hnotmem : i ∉ s := by
        intro hm
        rw [← hinv.mem i] at hm
        rw [hc.1] at hm
        cases hm
      have hsub : deps ⊆ s.toFinset := Finset.sdiff_eq_empty_iff_subset.mp hc.2
      have hinv' : Inv g (s ++ [i]) (r.set i true) := by
        refine ⟨by simp [hinv.rlen], ?_, ?_, ?_, ?_⟩
        · intro j
          by_cases hji : j = i
          · subst hji
            rw [getD_set_self (by rw [hinv.rlen]; exact hilt)]
            simp
          · rw [getD_set_ne hji, hinv.mem j]
            simp [hji]
        · simp only [List.nodup_append, List.nodup_cons]
          exact ⟨hinv.nodup, by simp, by simpa using fun h => hnotmem h⟩
        · intro j hj
          rcases List.mem_append.mp hj with hj' | hj'
          · exact hinv.bound j hj'
          · simp at hj'
            subst hj'
            exact hilt
        · intro j hj d hd
          rcases List.mem_append.mp hj with hj' | hj'
          · obtain ⟨hds, hlt⟩ := hinv.edge j hj' d hd
            refine ⟨List.mem_append.mpr (Or.inl hds), ?_⟩
            rw [List.indexOf_append_of_mem hds, List.indexOf_append_of_mem hj']
            exact hlt
          · simp at hj'
            subst hj'
            rw [hideps] at hd
            have hds : d ∈ s := List.mem_toFinset.mp (hsub hd)
            refine ⟨List.mem_append.mpr (Or.inl hds), ?_⟩
            rw [List.indexOf_append_of_mem hds, List.indexOf_append_of_not_mem hnotmem]
            have := List.indexOf_lt_length.mpr hds
            simp
            omega
      rw [sweepGo_cons_pos hc]
      exact ih (fun p hp => hL p (List.mem_cons_of_mem _ hp)) hinv'
    · rw [sweepGo_cons_neg hc]
      exact ih (fun p hp => hL p (List.mem_cons_of_mem _ hp)) hinv

/-- Running the loop from an invariant state with enough fuel lands on an
invariant state that is either complete or a fixed point of the sweep. -/
lemma topoLoop_final {g : DepGraph} (hwf : WF g) :
    ∀ (fuel : Nat) (s : List Nat) (r : List Bool), Inv g s r →
      g.length ≤ fuel + s.length →
      Inv g (topoLoop g fuel s r).1 (topoLoop g fuel s r).2 ∧
        (g.length ≤ (topoLoop g fuel s r).1.length ∨
          sweepGo g (topoLoop g fuel s r).1 (topoLoop g fuel s r).2 =
            ((topoLoop g fuel s r).1, (topoLoop g fuel s r).2)) := by
  intro fuel
  induction fuel with
  | zero =>
    intro s r hinv hfuel
    exact ⟨hinv, Or.inl (by simpa using hfuel)⟩
  | succ n ih =>
    intro s r hinv hfuel
    by_cases hlt : s.length < g.length
    · have hL : ∀ p ∈ g, p.1 < g.length ∧ depsOf g p.1 = p.2 := fun p hp => WF_entries hwf hp
      by_cases hprog : s.length < (sweepGo g s r).1.length
      · have heq : topoLoop g (n + 1) s r =
            topoLoop g n (sweepGo g s r).1 (sweepGo g s r).2 := by
          rw [topoLoop, if_pos hlt, if_pos hprog]
        rw [heq]
        exact ih _ _ (sweepGo_inv hL hinv) (by omega)
      · have hstall := sweepGo_stall g s r (Nat.le_of_not_lt hprog)
        have heq : topoLoop g (n + 1) s r = sweepGo g s r := by
          rw [topoLoop, if_pos hlt, if_neg hprog]
        rw [heq, hstall.1]
        refine ⟨hinv, Or.inr ?_⟩
        rw [hstall.1]
    · have heq : topoLoop g (n + 1) s r = (s, r) := by
        rw [topoLoop, if_neg hlt]
      rw [heq]
      exact ⟨hinv, Or.inl (Nat.le_of_not_lt hlt)⟩

/-- A complete invariant sorting is a permutation of the keys. -/
lemma complete_perm {g : DepGraph} (hwf : WF g) {s : List Nat} {r : List Bool}
    (hinv : Inv g s r) (hlen : g.length ≤ s.length) : s.Perm (g.map Prod.fst) := by
  have hsub : s.toFinset ⊆ Finset.range g.length := by
    intro i hi
    exact Finset.mem_range.mpr (hinv.bound i (List.mem_toFinset.mp hi))
  have hcard : s.toFinset.card = s.length := List.toFinset_card_of_nodup hinv.nodup
  have hcard2 : (Finset.range g.length).card = g.length := Finset.card_range _
  have heq : s.toFinset = Finset.range g.length :=
    Finset.eq_of_subset_of_card_le hsub (by omega)
  have hr : (g.map Prod.fst).toFinset = Finset.range g.length := by
    rw [hwf]
    exact Finset.ext fun i => by simp
  exact List.perm_of_nodup_nodup_toFinset_eq hinv.nodup (WF_nodup_keys hwf) (heq.trans hr.symm)

/-- When `topological_sort` succeeds, the output is a valid topological
order: a permutation of the keys with all producers before consumers. -/
lemma sort_ok_valid {g : DepGraph} (hwf : WF g) {s : List Nat}
    (h : topological_sort g = .ok s) : ValidOrder g s := by
  unfold topological_sort at h
  set st := topoLoop g g.length [] (List.replicate g.length false) with hst
  by_cases hlen : st.1.length < g.length
  · rw [if_pos hlen] at h
    cases h
  · rw [if_neg hlen] at h
    obtain ⟨hinv, _⟩ := topoLoop_final hwf g.length [] (List.replicate g.length false)
      (Inv.init g) (by simp)
    rw [← hst] at hinv
    have hs : s = st.1 := by cases h; rfl
    subst hs
    refine ⟨complete_perm hwf hinv (Nat.le_of_not_lt hlen), ?_⟩
    intro p hp d hd
    obtain ⟨hplt, hpdeps⟩ := WF_entries hwf hp
    have hmem : p.1 ∈ st.1 := by
      have := (complete_perm hwf hinv (Nat.le_of_not_lt hlen)).mem_iff (a := p.1)
      exact this.mpr (List.mem_map.mpr ⟨p, hp, rfl⟩)
    exact (hinv.edge p.1 hmem d (hpdeps ▸ hd)).2

/-- Index `i` can eventually be resolved by iterated peeling: it is a key
of the graph and all of its recorded dependencies are resolvable. The
unresolvable indices are exactly the cyclic or cycle-reachable ones (plus
indices depending on a non-key index, which can likewise never resolve). -/
inductive Resolvable (g : DepGraph) : Nat → Prop
  | mk (i : Nat) (hi : i ∈ g.map Prod.fst) (h : ∀ d ∈ depsOf g i, Resolvable g d) :
      Resolvable g i

/-- Every index placed into the sorting by the loop is resolvable. -/
lemma sorted_mem_resolvable {g : DepGraph} (hwf : WF g) {s : List Nat} {r : List Bool}
    (hinv : Inv g s r) : ∀ i ∈ s, Resolvable g i := by
  have H : ∀ n, ∀ i ∈ s, s.indexOf i = n → Resolvable g i := by
    intro n
    induction n using Nat.strong_induction_on with
    | _ n ih =>
      intro i hi hidx
      refine Resolvable.mk i ?_ ?_
      · rw [hwf]
        exact List.mem_range.mpr (hinv.bound i hi)
      · intro d hd
        obtain ⟨hds, hlt⟩ := hinv.edge i hi d hd
        exact ih (s.indexOf d) (hidx ▸ hlt) d hds rfl
  intro i hi
  exact H (s.indexOf i) i hi rfl

/-- At a sweep fixed point, every resolvable index has been sorted. -/
lemma resolvable_mem_of_fixed {g : DepGraph} (hwf : WF g) {s : List Nat} {r : List Bool}
    (hinv : Inv g s r) (hfix : sweepGo g s r = (s, r)) :
    ∀ i, Resolvable g i → i ∈ s := by
  have hstall := (sweepGo_stall g s r (by rw [hfix])).2
  intro i hres
  induction hres with
  | mk i hi h ih =>
    by_contra hnot
    obtain ⟨p, hp, hp1⟩ := List.mem_map.mp hi
    have hdeps : depsOf g p.1 = p.2 := (WF_entries hwf hp).2
    refine hstall p hp ⟨?_, ?_⟩
    · rw [hp1]
      cases hb : r.getD i false with
      | false => rfl
      | true => exact absurd ((hinv.mem i).mp hb) hnot
    · rw [← hdeps, hp1]
      refine Finset.sdiff_eq_empty_iff_subset.mpr ?_
      intro d hd
      exact List.mem_toFinset.mpr (ih d hd)

/-- When `topological_sort` raises, the carried index set is exactly the
set of keys that cannot be resolved by iterated peeling. -/
lemma sort_error_char {g : DepGraph} (hwf : WF g) {idxs : Finset Nat}
    (h : topological_sort g = .error idxs) :
    ∀ i, i ∈ idxs ↔ i ∈ g.map Prod.fst ∧ ¬Resolvable g i := by
  unfold topological_sort at h
  set st := topoLoop g g.length [] (List.replicate g.length false) with hst
  obtain ⟨hinv, hfix⟩ := topoLoop_final hwf g.length [] (List.replicate g.length false)
    (Inv.init g) (by simp)
  rw [← hst] at hinv hfix
  by_cases hlen : st.1.length < g.length
  · rw [if_pos hlen] at h
    have hidxs : idxs = (g.map Prod.fst).toFinset \ st.1.toFinset := by
      cases h; rfl
    have hfix' : sweepGo g st.1 st.2 = (st.1, st.2) := by
      rcases hfix with hc | hc
      · omega
      · exact hc
    subst hidxs
    intro i
    rw [Finset.mem_sdiff, List.mem_toFinset, List.mem_toFinset]
    constructor
    · rintro ⟨hkey, hnot⟩
      refine ⟨hkey, fun hres => hnot ?_⟩
      exact resolvable_mem_of_fixed hwf hinv hfix' i hres
    · rintro ⟨hkey, hnres⟩
      exact ⟨hkey, fun hmem => hnres (sorted_mem_resolvable hwf hinv i hmem)⟩
  · rw [if_neg hlen] at h
    cases h

/-- A nonempty index set in which every member has a dependency inside the
set can never be resolved. -/
lemma cycle_not_resolvable {g : DepGraph} {S : Finset Nat}
    (hS : ∀ j ∈ S, ∃ d ∈ depsOf g j, d ∈ S) : ∀ i ∈ S, ¬Resolvable g i := by
  have H : ∀ i, Resolvable g i → i ∉ S := by
    intro i hres
    induction hres with
    | mk i hi h ih =>
      intro hiS
      obtain ⟨d, hd, hdS⟩ := hS i hiS
      exact ih d hd hdS
  intro i hiS hres
  exact H i hres hiS

/-- A nonempty cyclic index set rules out any valid topological order. -/
lemma cycle_no_valid_order {g : DepGraph} (hwf : WF g) {S : Finset Nat}
    (hne : S.Nonempty) (hkeys : ∀ j ∈ S, j ∈ g.map Prod.fst)
    (hS : ∀ j ∈ S, ∃ d ∈ depsOf g j, d ∈ S) :
    ¬∃ s, ValidOrder g s := by
  rintro ⟨s, hperm, hedge⟩
  obtain ⟨i, hiS, hmin⟩ := S.exists_min_image (fun j => s.indexOf j) hne
  obtain ⟨d, hd, hdS⟩ := hS i hiS
  obtain ⟨p, hp, hp1⟩ := List.mem_map.mp (hkeys i hiS)
  have hdeps : depsOf g p.1 = p.2 := (WF_entries hwf hp).2
  have hlt : s.indexOf d < s.indexOf i := by
    have := hedge p hp d (by rw [← hdeps, hp1]; exact hd)
    rwa [hp1] at this
  have := hmin d hdS
  omega

/-- C1: for every well-formed dependency graph on which `topological_sort`
returns (no error raised), the returned sequence is a permutation of all
the graph's keys, and for every edge (consumer `p.1` depends on producer
`d`) the producer appears strictly earlier in the sequence. -/
theorem topological_sort_returns_valid_order (g : DepGraph) (hwf : WF g) (s : List Nat)
    (h : topological_sort g = .ok s) :
    s.Perm (g.map Prod.fst) ∧ ∀ p ∈ g, ∀ d ∈ p.2, s.indexOf d < s.indexOf p.1 :=
  sort_ok_valid hwf h

theorem topological_sort_returns_valid_order_witness :
    ([0, 1] : List Nat).Perm ([((0 : Nat), (∅ : Finset Nat)), (1, {0})].map Prod.fst) ∧
      ∀ p ∈ [((0 : Nat), (∅ : Finset Nat)), (1, {0})], ∀ d ∈ p.2,
        ([0, 1] : List Nat).indexOf d < ([0, 1] : List Nat).indexOf p.1 :=
  topological_sort_returns_valid_order [(0, ∅), (1, {0})] (by rfl) [0, 1] (by rfl)

/-- C3: `topological_sort` works by repeated full sweeps; within one pass
of a well-formed graph the newly eligible indices are appended in
ascending original-index order (the appended block is sorted), and on the
graph `{0: {1,2}, 1: {2}, 2: {}}` the result is exactly `(2, 1, 0)`. The
function is a pure function of the graph, so the result is deterministic
by construction. -/
theorem topological_sort_sweep_ascending :
    (∀ (g : DepGraph) (s : List Nat) (r : List Bool), WF g →
        ∃ t, (sweepGo g s r).1 = s ++ t ∧ t.Sorted (· < ·)) ∧
      topological_sort [(0, {1, 2}), (1, {2}), (2, ∅)] = .ok [2, 1, 0] := by
  constructor
  · intro g s r hwf
    obtain ⟨t, ht, hsub⟩ := sweepGo_append g s r
    refine ⟨t, ht, ?_⟩
    rw [hwf] at hsub
    exact List.Pairwise.sublist hsub (List.sorted_lt_range g.length)
  · rfl

theorem topological_sort_sweep_ascending_witness :
    (∃ t, (sweepGo [((0 : Nat), ({1, 2} : Finset Nat)), (1, {2}), (2, ∅)] []
        (List.replicate 3 false)).1 = [] ++ t ∧ t.Sorted (· < ·)) ∧
      topological_sort [(0, {1, 2}), (1, {2}), (2, ∅)] = .ok [2, 1, 0] :=
  ⟨topological_sort_sweep_ascending.1 [(0, {1, 2}), (1, {2}), (2, ∅)] []
      (List.replicate 3 false) (by rfl),
    topological_sort_sweep_ascending.2⟩

/-- C5: for every well-formed dependency graph admitting no valid total
order, `topological_sort` raises `CyclicDependencyError`, and the carried
index set is exactly the set of still-unresolvable keys (the cyclic or
cycle-reachable ones). -/
theorem topological_sort_cycle_error (g : DepGraph) (hwf : WF g)
    (hno : ¬∃ s, ValidOrder g s) :
    ∃ idxs, topological_sort g = .error idxs ∧
      ∀ i, i ∈ idxs ↔ i ∈ g.map Prod.fst ∧ ¬Resolvable g i := by
  cases hsort : topological_sort g with
  | ok s => exact absurd ⟨s, sort_ok_valid hwf hsort⟩ hno
  | error idxs => exact ⟨idxs, rfl, sort_error_char hwf hsort⟩

theorem topological_sort_cycle_error_witness :
    (∃ idxs, topological_sort [((0 : Nat), ({1} : Finset Nat)), (1, {0})] = .error idxs ∧
      0 ∈ idxs ∧ 1 ∈ idxs) ∧
    (∃ idxs, topological_sort [((0 : Nat), ({1} : Finset Nat)), (1, {2}), (2, {3}),
        (3, {4}), (4, {5}), (5, {6}), (6, {0})] = .error idxs ∧
      ∀ i, i ∈ idxs ↔ i < 7) := by
  constructor
  · obtain ⟨idxs, herr, hchar⟩ :=
      topological_sort_cycle_error [(0, {1}), (1, {0})] (by rfl)
        (cycle_no_valid_order (by rfl) (S := {0, 1}) ⟨0, by decide⟩ (by decide) (by decide))
    refine ⟨idxs, herr, ?_, ?_⟩
    · exact (hchar 0).mpr ⟨by decide,
        cycle_not_resolvable (S := {0, 1}) (by decide) 0 (by decide)⟩
    · exact (hchar 1).mpr ⟨by decide,
        cycle_not_resolvable (S := {0, 1}) (by decide) 1 (by decide)⟩
  · obtain ⟨idxs, herr, hchar⟩ :=
      topological_sort_cycle_error
        [(0, {1}), (1, {2}), (2, {3}), (3, {4}), (4, {5}), (5, {6}), (6, {0})] (by rfl)
        (cycle_no_valid_order (by rfl) (S := {0, 1, 2, 3, 4, 5, 6}) ⟨0, by decide⟩
          (by decide) (by decide))
    refine ⟨idxs, herr, fun i => ?_⟩
    rw [hchar i]
    constructor
    · rintro ⟨hkey, _⟩
      have : i = 0 ∨ i = 1 ∨ i = 2 ∨ i = 3 ∨ i = 4 ∨ i = 5 ∨ i = 6 := by simpa using hkey
      omega
    · intro hi
      refine ⟨?_, cycle_not_resolvable (S := {0, 1, 2, 3, 4, 5, 6}) (by decide) i ?_⟩
      · simp only [List.map_cons, List.map_nil]
        interval_cases i <;> decide
      · interval_cases i <;> decide

/-- The input-name list of the `k`-th unit (empty out of range). -/
def insAt (specs : List IOSpec) (k : Nat) : List String := (specs.getD k ([], [])).1

/-- The output-name list of the `k`-th unit (empty out of range). -/
def outsAt (specs : List IOSpec) (k : Nat) : List String := (specs.getD k ([], [])).2

/-- No output name is shared by two distinct units — the documented
assumption of `build_dependency_graph`. -/
def NoCollision (specs : List IOSpec) : Prop :=
  ∀ i < specs.length, ∀ j < specs.length, i ≠ j →
    ∀ nm ∈ outsAt specs i, nm ∉ outsAt specs j

lemma outsAt_default {specs : List IOSpec} {k : Nat} (h : specs.length ≤ k) :
    outsAt specs k = [] := by
  unfold outsAt
  rw [List.getD_eq_default _ _ h]

lemma insAt_default {specs : List IOSpec} {k : Nat} (h : specs.length ≤ k) :
    insAt specs k = [] := by
  unfold insAt
  rw [List.getD_eq_default _ _ h]

lemma lookupA_nil {α : Type} (k : String) : lookupA ([] : List (String × α)) k = none := rfl

lemma lookupA_cons {α : Type} (p : String × α) (l : List (String × α)) (k : String) :
    lookupA (p :: l) k = if p.1 = k then some p.2 else lookupA l k := by
  unfold lookupA
  by_cases h : p.1 = k
  · rw [List.find?_cons_of_pos _ (by simpa using h), if_pos h]
    rfl
  · rw [List.find?_cons_of_neg _ (by simpa using h), if_neg h]

lemma lookupA_append {α : Type} (ps qs : List (String × α)) (k : String) :
    lookupA (ps ++ qs) k = (lookupA ps k).orElse (fun _ => lookupA qs k) := by
  induction ps with
  | nil => simp [lookupA_nil, Option.orElse]
  | cons p ps ih =>
    rw [List.cons_append, lookupA_cons, lookupA_cons]
    by_cases h : p.1 = k
    · simp [if_pos h, Option.orElse]
    · simp only [if_neg h]
      exact ih

lemma lookupA_none_iff {α : Type} {l : List (String × α)} {k : String} :
    lookupA l k = none ↔ k ∉ l.map Prod.fst := by
  induction l with
  | nil => simp [lookupA_nil]
  | cons p l ih =>
    rw [lookupA_cons]
    by_cases h : p.1 = k
    · simp [if_pos h, h]
    · simp only [if_neg h, ih, List.map_cons, List.mem_cons]
      constructor
      · rintro hn (h1 | h2)
        · exact h h1.symm
        · exact hn h2
      · intro hn h2
        exact hn (Or.inr h2)

/-- An entry found by key membership in a nodup-key association list. -/
lemma lookupA_of_mem {α : Type} {l : List (String × α)} (hnd : (l.map Prod.fst).Nodup)
    {k : String} {v : α} (hm : (k, v) ∈ l) : lookupA l k = some v := by
  induction l with
  | nil => cases hm
  | cons p l ih =>
    simp only [List.map_cons, List.nodup_cons] at hnd
    rw [lookupA_cons]
    rcases List.mem_cons.mp hm with rfl | hm'
    · rw [if_pos rfl]
    · have hne : p.1 ≠ k := by
        intro h
        exact hnd.1 (h ▸ List.mem_map.mpr ⟨(k, v), hm', rfl⟩)
      rw [if_neg hne]
      exact ih hnd.2 hm'

/-- A successful lookup comes from an entry of the list. -/
lemma mem_of_lookupA {α : Type} {l : List (String × α)} {k : String} {v : α}
    (h : lookupA l k = some v) : (k, v) ∈ l := by
  induction l with
  | nil => cases h
  | cons p l ih =>
    rw [lookupA_cons] at h
    by_cases hp : p.1 = k
    · rw [if_pos hp] at h
      cases h
      exact List.mem_cons.mpr (Or.inl (by rw [← hp]))
    · rw [if_neg hp] at h
      exact List.mem_cons.mpr (Or.inr (ih h))

/-- `setdefault` scan over one unit's outputs, success case: it succeeds
exactly as run when no output name maps to a different producer, and the
final producers map extends the old one by `idx` on the fresh names. -/
lemma addOutputs_ok {idx : Nat} {l : List String} :
    ∀ {ps : List (String × Nat)},
      (∀ nm ∈ l, ∀ j, lookupA ps nm = some j → j = idx) →
      ∃ ps', addOutputs idx ps l = .ok ps' ∧
        ∀ nm, lookupA ps' nm =
          (lookupA ps nm).orElse (fun _ => if nm ∈ l then some idx else none) := by
  induction l with
  | nil =>
    intro ps _
    refine ⟨ps, rfl, fun nm => ?_⟩
    cases lookupA ps nm <;> simp [Option.orElse]
  | cons nm l ih =>
    intro ps hnoerr
    cases hl : lookupA ps nm with
    | some existing =>
      have hex : existing = idx := hnoerr nm (List.mem_cons_self _ _) existing hl
      subst hex
      obtain ⟨ps', hok, hchar⟩ :=
        ih (fun nm' hm' => hnoerr nm' (List.mem_cons_of_mem _ hm'))
      refine ⟨ps', ?_, ?_⟩
      · simp only [addOutputs, hl]
        rw [if_neg (by simp)]
        exact hok
      · intro nm'
        rw [hchar nm']
        by_cases he : nm' = nm
        · subst he
          rw [hl]
          by_cases hmem : nm' ∈ l <;> simp [Option.orElse, hmem]
        · have hiff : (nm' ∈ nm :: l) ↔ (nm' ∈ l) := by simp [he]
          simp only [hiff]
    | none =>
      have hnoerr' : ∀ nm' ∈ l, ∀ j, lookupA (ps ++ [(nm, idx)]) nm' = some j → j = idx := by
        intro nm' hm' j hj
        rw [lookupA_append] at hj
        cases hps : lookupA ps nm' with
        | some j' =>
          rw [hps] at hj
          simp [Option.orElse] at hj
          exact hj ▸ hnoerr nm' (List.mem_cons_of_mem _ hm') j' hps
        | none =>
          rw [hps] at hj
          simp only [Option.orElse] at hj
          rw [lookupA_cons] at hj
          by_cases he : nm = nm'
          · rw [if_pos he] at hj
            cases hj
            rfl
          · rw [if_neg he] at hj
            cases hj
      obtain ⟨ps', hok, hchar⟩ := ih hnoerr'
      refine ⟨ps', ?_, ?_⟩
      · simp only [addOutputs, hl]
        exact hok
      · intro nm'
        rw [hchar nm', lookupA_append]
        by_cases he : nm' = nm
        · subst he
          rw [hl]
          simp only [Option.orElse, lookupA_cons, if_pos rfl]
          by_cases hmem : nm' ∈ l <;> simp [hmem]
        · rw [lookupA_cons, if_neg (fun h => he h.symm), lookupA_nil]
          cases hps : lookupA ps nm' with
          | some j' => simp [Option.orElse]
          | none =>
            simp only [Option.orElse]
            have hiff : (nm' ∈ nm :: l) ↔ (nm' ∈ l) := by simp [he]
            simp only [hiff]

/-- `setdefault` scan over one unit's outputs, error case: scanning stops
at the first output name already owned by a different index, raising with
the pair of indices and that name. -/
lemma addOutputs_error {idx : Nat} {nm : String} {i : Nat} {post : List String} :
    ∀ {pre : List String} {ps : List (String × Nat)},
      (∀ nm' ∈ pre, ∀ j, lookupA ps nm' = some j → j = idx) →
      lookupA ps nm = some i → i ≠ idx →
      addOutputs idx ps (pre ++ nm :: post) = .error ({i, idx}, nm) := by
  intro pre
  induction pre with
  | nil =>
    intro ps _ hnm hne
    rw [List.nil_append]
    simp only [addOutputs, hnm]
    rw [if_pos hne]
  | cons a pre ih =>
    intro ps hpre hnm hne
    rw [List.cons_append]
    cases ha : lookupA ps a with
    | some j =>
      have hj : j = idx := hpre a (List.mem_cons_self _ _) j ha
      subst hj
      simp only [addOutputs, ha]
      rw [if_neg (by simp)]
      exact ih (fun nm' hm' => hpre nm' (List.mem_cons_of_mem _ hm')) hnm hne
    | none =>
      simp only [addOutputs, ha]
      have hnm' : lookupA (ps ++ [(a, idx)]) nm = some i := by
        rw [lookupA_append, hnm]
        simp [Option.orElse]
      refine ih ?_ hnm' hne
      intro nm' hm' j hj
      rw [lookupA_append] at hj
      cases hps : lookupA ps nm' with
      | some j' =>
        rw [hps] at hj
        simp [Option.orElse] at hj
        exact hj ▸ hpre nm' (List.mem_cons_of_mem _ hm') j' hps
      | none =>
        rw [hps] at hj
        simp only [Option.orElse] at hj
        rw [lookupA_cons] at hj
        by_cases he : a = nm'
        · rw [if_pos he] at hj
          cases hj
          rfl
        · rw [if_neg he] at hj
          cases hj

lemma lookupA_map_update {cs : List (String × List Nat)} {nm : String} {idx : Nat}
    (nm' : String) :
    lookupA (cs.map (fun p => if p.1 == nm then (p.1, p.2 ++ [idx]) else p)) nm' =
      if nm' = nm then (lookupA cs nm).map (fun L => L ++ [idx]) else lookupA cs nm' := by
  induction cs with
  | nil =>
    by_cases h : nm' = nm <;> simp [lookupA_nil, h]
  | cons p cs ih =>
    simp only [List.map_cons]
    by_cases hpn : p.1 = nm
    · rw [if_pos (by simpa using hpn)]
      by_cases hpk : p.1 = nm'
      · have he : nm' = nm := by rw [← hpk, hpn]
        rw [lookupA_cons, if_pos hpk, if_pos he, lookupA_cons, if_pos hpn]
        rfl
      · have he : ¬nm' = nm := by rw [← hpn]; exact fun h => hpk h.symm
        rw [lookupA_cons, if_neg hpk, ih, if_neg he, if_neg he, lookupA_cons, if_neg hpk]
    · rw [if_neg (by simpa using hpn)]
      by_cases hpk : p.1 = nm'
      · have he : ¬nm' = nm := fun h => hpn (by rw [hpk, h])
        rw [lookupA_cons, if_pos hpk, if_neg he, lookupA_cons, if_pos hpk]
      · rw [lookupA_cons, if_neg hpk, ih, lookupA_cons (k := nm'), if_neg hpk]
        by_cases he : nm' = nm
        · rw [if_pos he, if_pos he, lookupA_cons, if_neg (he ▸ hpn)]
        · rw [if_neg he, if_neg he]

lemma addConsumer_pos {cs : List (String × List Nat)} {nm : String} {idx : Nat}
    (h : (lookupA cs nm).isSome) :
    addConsumer cs nm idx = cs.map (fun p => if p.1 == nm then (p.1, p.2 ++ [idx]) else p) := by
  unfold addConsumer
  rw [if_pos (by unfold lookupA at h; simpa using h)]

lemma addConsumer_neg {cs : List (String × List Nat)} {nm : String} {idx : Nat}
    (h : lookupA cs nm = none) :
    addConsumer cs nm idx = cs ++ [(nm, [idx])] := by
  have hf : cs.find? (fun p => p.1 == nm) = none := by
    unfold lookupA at h
    cases hf : cs.find? (fun p => p.1 == nm) with
    | none => rfl
    | some p => rw [hf] at h; cases h
  unfold addConsumer
  rw [if_neg (by simp [hf])]

lemma addConsumer_lookup (cs : List (String × List Nat)) (nm : String) (idx : Nat)
    (nm' : String) :
    lookupA (addConsumer cs nm idx) nm' =
      if nm' = nm then some (((lookupA cs nm).getD []) ++ [idx]) else lookupA cs nm' := by
  cases h : lookupA cs nm with
  | some L =>
    rw [addConsumer_pos (by rw [h]; rfl), lookupA_map_update nm']
    by_cases he : nm' = nm
    · rw [if_pos he, if_pos he, h]
      rfl
    · rw [if_neg he, if_neg he]
  | none =>
    rw [addConsumer_neg h, lookupA_append]
    by_cases he : nm' = nm
    · subst he
      rw [h]
      simp [Option.orElse, lookupA_cons]
    · rw [if_neg he]
      cases hcs : lookupA cs nm' with
      | some L => simp [Option.orElse]
      | none =>
        simp only [Option.orElse]
        rw [lookupA_cons, lookupA_nil, if_neg (fun hh => he hh.symm)]

lemma map_update_keys (cs : List (String × List Nat)) (nm : String) (idx : Nat) :
    (cs.map (fun p => if p.1 == nm then (p.1, p.2 ++ [idx]) else p)).map Prod.fst =
      cs.map Prod.fst := by
  induction cs with
  | nil => rfl
  | cons p cs ih =>
    simp only [List.map_cons, ih]
    by_cases hh : p.1 = nm
    · rw [if_pos (by simpa using hh)]
    · rw [if_neg (by simpa using hh)]

lemma addConsumer_nodup {cs : List (String × List Nat)} {nm : String} {idx : Nat}
    (hnd : (cs.map Prod.fst).Nodup) :
    ((addConsumer cs nm idx).map Prod.fst).Nodup := by
  cases h : lookupA cs nm with
  | some L =>
    rw [addConsumer_pos (by rw [h]; rfl), map_update_keys]
    exact hnd
  | none =>
    rw [addConsumer_neg h]
    have hnot : nm ∉ cs.map Prod.fst := lookupA_none_iff.mp h
    simp only [List.map_append, List.map_cons, List.map_nil]
    rw [List.nodup_append]
    refine ⟨hnd, List.nodup_singleton _, ?_⟩
    intro x hx hx2
    simp only [List.mem_singleton] at hx2
    subst hx2
    exact hnot hx

lemma addConsumers_spec (idx : Nat) :
    ∀ (l : List String) (cs : List (String × List Nat)), (cs.map Prod.fst).Nodup →
      ((addConsumers idx cs l).map Prod.fst).Nodup ∧
        ∀ nm i, i ∈ (lookupA (addConsumers idx cs l) nm).getD [] ↔
          (i ∈ (lookupA cs nm).getD [] ∨ (i = idx ∧ nm ∈ l)) := by
  intro l
  induction l with
  | nil =>
    intro cs hnd
    exact ⟨hnd, fun nm i => by simp [addConsumers]⟩
  | cons a l ih =>
    intro cs hnd
    have hstep : addConsumers idx cs (a :: l) = addConsumers idx (addConsumer cs a idx) l := rfl
    rw [hstep]
    obtain ⟨hnd', hchar⟩ := ih (addConsumer cs a idx) (addConsumer_nodup hnd)
    refine ⟨hnd', fun nm i => ?_⟩
    rw [hchar nm i, addConsumer_lookup cs a idx nm]
    by_cases he : nm = a
    · subst he
      rw [if_pos rfl]
      simp only [Option.getD_some, List.mem_append]
      constructor
      · rintro ((hm | hm) | ⟨rfl, hl⟩)
        · exact Or.inl hm
        · simp only [List.mem_singleton] at hm
          exact Or.inr ⟨hm, List.mem_cons_self _ _⟩
        · exact Or.inr ⟨rfl, List.mem_cons_of_mem _ hl⟩
      · rintro (hm | ⟨rfl, _⟩)
        · exact Or.inl (Or.inl hm)
        · exact Or.inl (Or.inr (List.mem_singleton.mpr rfl))
    · rw [if_neg he]
      have hmem : (nm ∈ a :: l) ↔ (nm ∈ l) := by simp [he]
      rw [hmem]

lemma depsOf_nil (i : Nat) : depsOf [] i = ∅ := rfl

lemma depsOf_cons (p : Nat × Finset Nat) (l : List (Nat × Finset Nat)) (i : Nat) :
    depsOf (p :: l) i = if p.1 = i then p.2 else depsOf l i := by
  unfold depsOf
  by_cases h : p.1 = i
  · rw [List.find?_cons_of_pos _ (by simpa using h), if_pos h]
    rfl
  · rw [List.find?_cons_of_neg _ (by simpa using h), if_neg h]

lemma graphAdd_cons (p : Nat × Finset Nat) (l : List (Nat × Finset Nat)) (c prod : Nat) :
    graphAdd (p :: l) c prod =
      (if p.1 = c then (p.1, insert prod p.2) else p) :: graphAdd l c prod := by
  simp [graphAdd]

lemma graphAdd_keys (g : DepGraph) (c prod : Nat) :
    (graphAdd g c prod).map Prod.fst = g.map Prod.fst := by
  induction g with
  | nil => rfl
  | cons p l ih =>
    rw [graphAdd_cons]
    simp only [List.map_cons, ih]
    by_cases h : p.1 = c
    · rw [if_pos h]
    · rw [if_neg h]

lemma depsOf_cons_pair (a : Nat) (v : Finset Nat) (l : List (Nat × Finset Nat)) (i : Nat) :
    depsOf ((a, v) :: l) i = if a = i then v else depsOf l i :=
  depsOf_cons (a, v) l i

lemma graphAdd_mem (g : DepGraph) (c prod i j : Nat) :
    j ∈ depsOf (graphAdd g c prod) i ↔
      j ∈ depsOf g i ∨ (i = c ∧ c ∈ g.map Prod.fst ∧ j = prod) := by
  induction g with
  | nil => simp [graphAdd, depsOf_nil]
  | cons p l ih =>
    rw [graphAdd_cons, depsOf_cons (p := p)]
    by_cases hpc : p.1 = c
    · rw [if_pos hpc, depsOf_cons_pair]
      by_cases hpi : p.1 = i
      · simp only [if_pos hpi, Finset.mem_insert]
        have hic : i = c := by rw [← hpi, hpc]
        have hck : c ∈ (p :: l).map Prod.fst := by
          simp only [List.map_cons, List.mem_cons]
          exact Or.inl hpc.symm
        constructor
        · rintro (rfl | hm)
          · exact Or.inr ⟨hic, hck, rfl⟩
          · exact Or.inl hm
        · rintro (hm | ⟨_, _, rfl⟩)
          · exact Or.inr hm
          · exact Or.inl rfl
      · rw [if_neg hpi, if_neg hpi, ih]
        have hic : ¬(i = c) := fun h => hpi (by rw [hpc, h])
        simp [hic]
    · rw [if_neg hpc, depsOf_cons (p := p)]
      by_cases hpi : p.1 = i
      · rw [if_pos hpi, if_pos hpi]
        have hic : ¬(i = c) := fun h => hpc (by rw [hpi, h])
        simp [hic]
      · rw [if_neg hpi, if_neg hpi, ih]
        have : (c ∈ (p :: l).map Prod.fst) ↔ (c ∈ l.map Prod.fst) := by
          simp only [List.map_cons, List.mem_cons]
          constructor
          · rintro (h | h)
            · exact absurd h.symm hpc
            · exact h
          · exact Or.inr
        rw [this]

lemma graphAddFold_keys (prod : Nat) :
    ∀ (L : List Nat) (g : DepGraph),
      ((L.foldl (fun g c => graphAdd g c prod) g).map Prod.fst) = g.map Prod.fst := by
  intro L
  induction L with
  | nil => intro g; rfl
  | cons c L ih =>
    intro g
    simp only [List.foldl_cons]
    rw [ih (graphAdd g c prod), graphAdd_keys]

lemma graphAddFold_mem (prod : Nat) :
    ∀ (L : List Nat) (g : DepGraph) (i j : Nat),
      j ∈ depsOf (L.foldl (fun g c => graphAdd g c prod) g) i ↔
        j ∈ depsOf g i ∨ (i ∈ L ∧ i ∈ g.map Prod.fst ∧ j = prod) := by
  intro L
  induction L with
  | nil => intro g i j; simp
  | cons c L ih =>
    intro g i j
    simp only [List.foldl_cons]
    rw [ih (graphAdd g c prod) i j, graphAdd_mem, graphAdd_keys]
    constructor
    · rintro ((hm | ⟨rfl, hck, rfl⟩) | ⟨hiL, hik, rfl⟩)
      · exact Or.inl hm
      · exact Or.inr ⟨List.mem_cons_self _ _, hck, rfl⟩
      · exact Or.inr ⟨List.mem_cons_of_mem _ hiL, hik, rfl⟩
    · rintro (hm | ⟨hiL, hik, rfl⟩)
      · exact Or.inl (Or.inl hm)
      · rcases List.mem_cons.mp hiL with rfl | hiL'
        · exact Or.inl (Or.inr ⟨rfl, hik, rfl⟩)
        · exact Or.inr ⟨hiL', hik, rfl⟩

lemma addAllEdges_keys (producers : List (String × Nat)) :
    ∀ (entries : List (String × List Nat)) (g : DepGraph),
      (addAllEdges producers g entries).map Prod.fst = g.map Prod.fst := by
  intro entries
  induction entries with
  | nil => intro g; rfl
  | cons e rest ih =>
    intro g
    obtain ⟨nm, L⟩ := e
    cases hlk : lookupA producers nm with
    | some prod =>
      simp only [addAllEdges, hlk]
      rw [ih, graphAddFold_keys]
    | none =>
      simp only [addAllEdges, hlk]
      exact ih g

lemma addAllEdges_mem (producers : List (String × Nat)) :
    ∀ (entries : List (String × List Nat)) (g : DepGraph) (i j : Nat),
      j ∈ depsOf (addAllEdges producers g entries) i ↔
        j ∈ depsOf g i ∨
          ∃ p ∈ entries, i ∈ p.2 ∧ i ∈ g.map Prod.fst ∧ lookupA producers p.1 = some j := by
  intro entries
  induction entries with
  | nil => intro g i j; simp [addAllEdges]
  | cons e rest ih =>
    intro g i j
    obtain ⟨nm, L⟩ := e
    cases hlk : lookupA producers nm with
    | some prod =>
      simp only [addAllEdges, hlk]
      rw [ih, graphAddFold_keys, graphAddFold_mem]
      constructor
      · rintro ((hm | ⟨hiL, hik, rfl⟩) | ⟨p, hp, hip, hik, hlp⟩)
        · exact Or.inl hm
        · exact Or.inr ⟨(nm, L), List.mem_cons_self _ _, hiL, hik, hlk⟩
        · exact Or.inr ⟨p, List.mem_cons_of_mem _ hp, hip, hik, hlp⟩
      · rintro (hm | ⟨p, hp, hip, hik, hlp⟩)
        · exact Or.inl (Or.inl hm)
        · rcases List.mem_cons.mp hp with rfl | hp'
          · rw [hlk] at hlp
            cases hlp
            exact Or.inl (Or.inr ⟨hip, hik, rfl⟩)
          · exact Or.inr ⟨p, hp', hip, hik, hlp⟩
    | none =>
      simp only [addAllEdges, hlk]
      rw [ih]
      constructor
      · rintro (hm | ⟨p, hp, hip, hik, hlp⟩)
        · exact Or.inl hm
        · exact Or.inr ⟨p, List.mem_cons_of_mem _ hp, hip, hik, hlp⟩
      · rintro (hm | ⟨p, hp, hip, hik, hlp⟩)
        · exact Or.inl hm
        · rcases List.mem_cons.mp hp with rfl | hp'
          · rw [hlk] at hlp
            cases hlp
          · exact Or.inr ⟨p, hp', hip, hik, hlp⟩

lemma emptyGraph_keys (n : Nat) : (emptyGraph n).map Prod.fst = List.range n := by
  unfold emptyGraph
  rw [List.map_map]
  have hcomp : (Prod.fst ∘ fun i => ((i, (∅ : Finset Nat)) : Nat × Finset Nat)) = id := rfl
  rw [hcomp, List.map_id]

lemma emptyGraph_depsOf (n i : Nat) : depsOf (emptyGraph n) i = ∅ := by
  have hall : ∀ p ∈ emptyGraph n, p.2 = (∅ : Finset Nat) := by
    intro p hp
    unfold emptyGraph at hp
    obtain ⟨k, _, rfl⟩ := List.mem_map.mp hp
    rfl
  unfold depsOf
  cases hf : (emptyGraph n).find? (fun p => p.1 = i) with
  | none => rfl
  | some p =>
    have hp : p ∈ emptyGraph n := List.mem_of_find?_eq_some hf
    simp [hall p hp]

/-- Driving the scan of `build_dependency_graph` to completion when no
output name collides: it succeeds, the final producers map is exactly
"name ↦ its producing unit", and the final consumers map is exactly
"name ↦ the units consuming it". -/
lemma scanUnits_ok {specs : List IOSpec} (hnc : NoCollision specs) :
    ∀ (rest : List IOSpec) (k : Nat) (ps : List (String × Nat))
      (cs : List (String × List Nat)),
      rest = specs.drop k →
      (∀ nm j, lookupA ps nm = some j ↔ (j < k ∧ nm ∈ outsAt specs j)) →
      (∀ nm i, i ∈ (lookupA cs nm).getD [] ↔ (i < k ∧ nm ∈ insAt specs i)) →
      (cs.map Prod.fst).Nodup →
      ∃ ps' cs', scanUnits ps cs k rest = .ok (ps', cs') ∧
        (∀ nm j, lookupA ps' nm = some j ↔ (j < specs.length ∧ nm ∈ outsAt specs j)) ∧
        (∀ nm i, i ∈ (lookupA cs' nm).getD [] ↔ (i < specs.length ∧ nm ∈ insAt specs i)) ∧
        (cs'.map Prod.fst).Nodup := by
  intro rest
  induction rest with
  | nil =>
    intro k ps cs hdrop hps hcs hnd
    have hk : specs.length ≤ k := by
      by_contra hlt
      have hlen := congrArg List.length hdrop
      simp only [List.length_nil, List.length_drop] at hlen
      omega
    refine ⟨ps, cs, rfl, ?_, ?_, hnd⟩
    · intro nm j
      rw [hps nm j]
      constructor
      · rintro ⟨hj, hmem⟩
        have hjl : j < specs.length := by
          by_contra hge
          rw [outsAt_default (Nat.le_of_not_lt hge)] at hmem
          cases hmem
        exact ⟨hjl, hmem⟩
      · rintro ⟨hj, hmem⟩
        exact ⟨by omega, hmem⟩
    · intro nm i
      rw [hcs nm i]
      constructor
      · rintro ⟨hi, hmem⟩
        have hil : i < specs.length := by
          by_contra hge
          rw [insAt_default (Nat.le_of_not_lt hge)] at hmem
          cases hmem
        exact ⟨hil, hmem⟩
      · rintro ⟨hi, hmem⟩
        exact ⟨by omega, hmem⟩
  | cons unit rest ih =>
    intro k ps cs hdrop hps hcs hnd
    have hk : k < specs.length := by
      by_contra h
      rw [List.drop_eq_nil_of_le (Nat.le_of_not_lt h)] at hdrop
      cases hdrop
    have hdrop2 : unit :: rest = specs[k] :: specs.drop (k + 1) := by
      rw [hdrop]
      exact List.drop_eq_getElem_cons hk
    have hunit : unit = specs[k] := (List.cons.injEq _ _ _ _ ▸ hdrop2).1
    have hrest : rest = specs.drop (k + 1) := (List.cons.injEq _ _ _ _ ▸ hdrop2).2
    obtain ⟨ins, outs⟩ := unit
    have houts : outsAt specs k = outs := by
      unfold outsAt
      rw [List.getD_eq_getElem _ _ hk, ← hunit]
    have hins : insAt specs k = ins := by
      unfold insAt
      rw [List.getD_eq_getElem _ _ hk, ← hunit]
    have hnoerr : ∀ nm ∈ outs, ∀ j, lookupA ps nm = some j → j = k := by
      intro nm hm j hj
      obtain ⟨hjk, hjo⟩ := (hps nm j).mp hj
      exact absurd hjo (hnc k hk j (by omega) (by omega) nm (houts ▸ hm))
    obtain ⟨ps2, hok, hpchar⟩ := addOutputs_ok hnoerr
    obtain ⟨hnd2, hcchar⟩ := addConsumers_spec k ins cs hnd
    have hps2 : ∀ nm j, lookupA ps2 nm = some j ↔ (j < k + 1 ∧ nm ∈ outsAt specs j) := by
      intro nm j
      rw [hpchar nm]
      cases hlp : lookupA ps nm with
      | some j' =>
        simp only [Option.orElse, Option.some.injEq]
        obtain ⟨hj'k, hj'o⟩ := (hps nm j').mp hlp
        constructor
        · rintro rfl
          exact ⟨by omega, hj'o⟩
        · rintro ⟨hjk, hjo⟩
          by_cases hjj : j = j'
          · exact hjj.symm
          · exfalso
            by_cases hjk' : j = k
            · refine hnc k hk j' (by omega) (by omega) nm ?_ hj'o
              rw [hjk'] at hjo
              exact hjo
            · have : j < k := by omega
              exact hnc j (by omega) j' (by omega) (fun h => hjj h) nm hjo hj'o
      | none =>
        simp only [Option.orElse]
        by_cases hmem : nm ∈ outs
        · rw [if_pos hmem]
          simp only [Option.some.injEq]
          constructor
          · rintro rfl
            refine ⟨by omega, ?_⟩
            rw [houts]
            exact hmem
          · rintro ⟨hjk, hjo⟩
            by_cases hjk' : j = k
            · exact hjk'.symm
            · exfalso
              have hjlt : j < k := by omega
              have := (hps nm j).mpr ⟨hjlt, hjo⟩
              rw [hlp] at this
              cases this
        · rw [if_neg hmem]
          constructor
          · rintro h
            cases h
          · rintro ⟨hjk, hjo⟩
            exfalso
            by_cases hjk' : j = k
            · rw [hjk', houts] at hjo
              exact hmem hjo
            · have hjlt : j < k := by omega
              have := (hps nm j).mpr ⟨hjlt, hjo⟩
              rw [hlp] at this
              cases this
    have hcs2 : ∀ nm i, i ∈ (lookupA (addConsumers k cs ins) nm).getD [] ↔
        (i < k + 1 ∧ nm ∈ insAt specs i) := by
      intro nm i
      rw [hcchar nm i, hcs nm i]
      constructor
      · rintro (⟨hik, hmem⟩ | ⟨rfl, hmem⟩)
        · exact ⟨by omega, hmem⟩
        · refine ⟨by omega, ?_⟩
          rw [hins]
          exact hmem
      · rintro ⟨hik, hmem⟩
        by_cases hik' : i = k
        · subst hik'
          rw [hins] at hmem
          exact Or.inr ⟨rfl, hmem⟩
        · exact Or.inl ⟨by omega, hmem⟩
    have hstep : scanUnits ps cs k ((ins, outs) :: rest) =
        scanUnits ps2 (addConsumers k cs ins) (k + 1) rest := by
      simp only [scanUnits, hok]
    rw [hstep]
    exact ih (k + 1) ps2 (addConsumers k cs ins) hrest hps2 hcs2 hnd2

/-- Successful run of `build_dependency_graph` under the no-collision
assumption: the result has keys `0..n-1` in order and records the edge
`i → j` exactly when some input name of unit `i` is an output name of
unit `j`. -/
lemma build_ok_char {specs : List IOSpec} (hnc : NoCollision specs) :
    ∃ g, build_dependency_graph specs = .ok g ∧ WF g ∧
      g.length = specs.length ∧
      ∀ i j, j ∈ depsOf g i ↔
        (i < specs.length ∧
          ∃ nm ∈ insAt specs i, j < specs.length ∧ nm ∈ outsAt specs j) := by
  obtain ⟨ps', cs', hscan, hpchar, hcchar, hnd⟩ :=
    scanUnits_ok hnc specs 0 [] [] (by rw [List.drop_zero])
      (fun nm j => by rw [lookupA_nil]; simp)
      (fun nm i => by rw [lookupA_nil]; simp)
      (by simp)
  have hbuild : build_dependency_graph specs =
      .ok (addAllEdges ps' (emptyGraph specs.length) cs') := by
    simp only [build_dependency_graph, hscan]
  set g := addAllEdges ps' (emptyGraph specs.length) cs' with hg
  have hkeys : g.map Prod.fst = List.range specs.length := by
    rw [hg, addAllEdges_keys, emptyGraph_keys]
  have hlen : g.length = specs.length := by
    have := congrArg List.length hkeys
    simpa using this
  refine ⟨g, hbuild, ?_, hlen, ?_⟩
  · unfold WF
    rw [hkeys, hlen]
  · intro i j
    rw [hg, addAllEdges_mem, emptyGraph_depsOf, emptyGraph_keys]
    simp only [Finset.not_mem_empty, false_or]
    constructor
    · rintro ⟨p, hp, hip, hik, hlp⟩
      obtain ⟨hjn, hjo⟩ := (hpchar p.1 j).mp hlp
      have hil : i ∈ (lookupA cs' p.1).getD [] := by
        rw [lookupA_of_mem hnd (by exact (Prod.mk.eta (p := p)) ▸ hp)]
        exact hip
      obtain ⟨hin, hii⟩ := (hcchar p.1 i).mp hil
      exact ⟨hin, p.1, hii, hjn, hjo⟩
    · rintro ⟨hin, nm, hii, hjn, hjo⟩
      have hilk : i ∈ (lookupA cs' nm).getD [] := (hcchar nm i).mpr ⟨hin, hii⟩
      cases hlk : lookupA cs' nm with
      | none =>
        rw [hlk] at hilk
        cases hilk
      | some L =>
        rw [hlk] at hilk
        refine ⟨(nm, L), mem_of_lookupA hlk, hilk, ?_, (hpchar nm j).mpr ⟨hjn, hjo⟩⟩
        rw [List.mem_range]
        exact hin

/-- A valid topological order certifies that every key is resolvable. -/
lemma valid_order_resolvable {g : DepGraph} (hwf : WF g) {s : List Nat}
    (hv : ValidOrder g s) : ∀ i ∈ g.map Prod.fst, Resolvable g i := by
  obtain ⟨hperm, hedge⟩ := hv
  have H : ∀ n, ∀ i ∈ g.map Prod.fst, s.indexOf i = n → Resolvable g i := by
    intro n
    induction n using Nat.strong_induction_on with
    | _ n ih =>
      intro i hi hidx
      refine Resolvable.mk i hi ?_
      intro d hd
      obtain ⟨p, hp, hp1⟩ := List.mem_map.mp hi
      have hdeps := (WF_entries hwf hp).2
      have hlt : s.indexOf d < s.indexOf i := by
        have := hedge p hp d (by rw [← hdeps, hp1]; exact hd)
        rwa [hp1] at this
      have hdis : d ∈ s := List.indexOf_lt_length.mp (by
        have hii : i ∈ s := hperm.mem_iff.mpr hi
        have := List.indexOf_lt_length.mpr hii
        omega)
      have hdk : d ∈ g.map Prod.fst := hperm.mem_iff.mp hdis
      exact ih (s.indexOf d) (hidx ▸ hlt) d hdk rfl
  intro i hi
  exact H (s.indexOf i) i hi rfl

/-- A decidable sufficient check for `NoCollision`, used on concrete specs. -/
lemma noCollision_of_check (specs : List IOSpec)
    (h : ∀ i < specs.length, ∀ j < specs.length,
      i = j ∨ ∀ nm ∈ outsAt specs i, nm ∉ outsAt specs j) : NoCollision specs := by
  intro i hi j hj hne nm hin hout
  rcases h i hi j hj with heq | hdisj
  · exact hne heq
  · exact hdisj nm hin hout

/-- C2: for every sequence of IO specs with no repeated output name across
distinct units, `build_dependency_graph` returns a mapping whose keys are
exactly `0..n-1` in order, and index `j` belongs to the dependency set of
index `i` exactly when unit `j` produces some input name of unit `i`;
input names produced by no unit add no edge and raise no error (they
simply fail the right-hand side). -/
theorem build_dependency_graph_ok (specs : List IOSpec) (hnc : NoCollision specs) :
    ∃ g, build_dependency_graph specs = .ok g ∧
      g.map Prod.fst = List.range specs.length ∧
      ∀ i j, j ∈ depsOf g i ↔
        (i < specs.length ∧
          ∃ nm ∈ insAt specs i, j < specs.length ∧ nm ∈ outsAt specs j) := by
  obtain ⟨g, h1, hwf, hlen, hchar⟩ := build_ok_char hnc
  refine ⟨g, h1, ?_, hchar⟩
  rw [WF] at hwf
  rw [hwf, hlen]

theorem build_dependency_graph_ok_witness :
    ∃ g, build_dependency_graph [(["a"], ["b"]), (["b"], ["c"]), (["x"], [])] = .ok g ∧
      g.map Prod.fst = List.range 3 ∧ 0 ∈ depsOf g 1 ∧ 1 ∉ depsOf g 0 := by
  obtain ⟨g, h1, h2, h3⟩ :=
    build_dependency_graph_ok [(["a"], ["b"]), (["b"], ["c"]), (["x"], [])]
      (noCollision_of_check _ (by decide))
  refine ⟨g, h1, h2, ?_, ?_⟩
  · exact (h3 1 0).mpr ⟨by decide, "b", by decide, by decide, by decide⟩
  · intro hmem
    obtain ⟨_, nm, hnm1, _, hnm2⟩ := (h3 0 1).mp hmem
    have h1' : nm ∈ ["a"] := hnm1
    have h2' : nm ∈ ["c"] := hnm2
    simp only [List.mem_singleton] at h1' h2'
    rw [h1'] at h2'
    exact absurd h2' (by decide)

/-- C10: a unit listing the same name among both its own inputs and its
own outputs (with otherwise collision-free specs) raises no
`OutputRedefinitionError` in `build_dependency_graph` but records a
self-edge, so `topological_sort` on the resulting graph raises
`CyclicDependencyError` with that unit's index among the unresolved
indices. -/
theorem self_io_makes_self_edge_and_cycle (specs : List IOSpec) (hnc : NoCollision specs)
    (u : Nat) (hu : u < specs.length) (nm : String)
    (hin : nm ∈ insAt specs u) (hout : nm ∈ outsAt specs u) :
    ∃ g, build_dependency_graph specs = .ok g ∧ u ∈ depsOf g u ∧
      ∃ idxs, topological_sort g = .error idxs ∧ u ∈ idxs := by
  obtain ⟨g, h1, hwf, hlen, hchar⟩ := build_ok_char hnc
  have hself : u ∈ depsOf g u := (hchar u u).mpr ⟨hu, nm, hin, hu, hout⟩
  have hukey : u ∈ g.map Prod.fst := by
    rw [hwf, List.mem_range, hlen]
    exact hu
  have hnres : ¬Resolvable g u :=
    cycle_not_resolvable (S := {u})
      (fun j hj => by
        rw [Finset.mem_singleton] at hj
        rw [hj]
        exact ⟨u, hself, Finset.mem_singleton_self u⟩)
      u (Finset.mem_singleton_self u)
  refine ⟨g, h1, hself, ?_⟩
  cases hsort : topological_sort g with
  | ok s =>
    exact absurd (valid_order_resolvable hwf (sort_ok_valid hwf hsort) u hukey) hnres
  | error idxs =>
    refine ⟨idxs, rfl, ?_⟩
    rw [sort_error_char hwf hsort u]
    exact ⟨hukey, hnres⟩

theorem self_io_makes_self_edge_and_cycle_witness :
    ∃ g, build_dependency_graph [((["x"], ["x"]) : IOSpec)] = .ok g ∧ 0 ∈ depsOf g 0 ∧
      ∃ idxs, topological_sort g = .error idxs ∧ 0 ∈ idxs :=
  self_io_makes_self_edge_and_cycle [(["x"], ["x"])] (noCollision_of_check _ (by decide)) 0
    (by decide) "x" (by decide) (by decide)

/-- Splitting a list at the first element satisfying a predicate. -/
lemma first_satisfying_split {P : String → Prop} [DecidablePred P] (l : List String)
    (h : ∃ x ∈ l, P x) :
    ∃ pre x post, l = pre ++ x :: post ∧ P x ∧ ∀ y ∈ pre, ¬P y := by
  induction l with
  | nil =>
    obtain ⟨x, hx, _⟩ := h
    cases hx
  | cons a l ih =>
    by_cases ha : P a
    · exact ⟨[], a, l, rfl, ha, by simp⟩
    · have h' : ∃ x ∈ l, P x := by
        obtain ⟨x, hx, hPx⟩ := h
        rcases List.mem_cons.mp hx with rfl | hx'
        · exact absurd hPx ha
        · exact ⟨x, hx', hPx⟩
      obtain ⟨pre, x, post, heq, hPx, hpre⟩ := ih h'
      refine ⟨a :: pre, x, post, by rw [heq]; rfl, hPx, ?_⟩
      intro y hy
      rcases List.mem_cons.mp hy with rfl | hy'
      · exact ha
      · exact hpre y hy'

/-- The output lists seen by the scan depend only on the specs' second
components. -/
lemma outsAt_congr {specs specs' : List IOSpec}
    (h : specs'.map Prod.snd = specs.map Prod.snd) (k : Nat) :
    outsAt specs' k = outsAt specs k := by
  have hlen : specs'.length = specs.length := by
    have := congrArg List.length h
    simpa using this
  unfold outsAt
  by_cases hk : k < specs.length
  · have hk' : k < specs'.length := by omega
    rw [List.getD_eq_getElem _ _ hk, List.getD_eq_getElem _ _ hk']
    have h1 : (specs'.map Prod.snd)[k]? = (specs.map Prod.snd)[k]? := by rw [h]
    rw [List.getElem?_map, List.getElem?_map, List.getElem?_eq_getElem hk,
      List.getElem?_eq_getElem hk', Option.map_some', Option.map_some'] at h1
    exact Option.some.inj h1
  · rw [List.getD_eq_default _ _ (by omega), List.getD_eq_default _ _ (by omega)]

/-- Scanning up to the first collision unit `j0`: no error is raised on
units before `j0`, and on arrival the producers map sends each name to
its first producer among units `< j0`. -/
lemma scanUnits_first_producer (specs : List IOSpec) (j0 : Nat)
    (hfirstj : ∀ j' < j0, ∀ nm ∈ outsAt specs j', ∀ i' < j', nm ∉ outsAt specs i')
    (hj0len : j0 ≤ specs.length) :
    ∀ (fuel k : Nat) (ps : List (String × Nat)) (cs : List (String × List Nat)),
      j0 - k ≤ fuel → k ≤ j0 →
      (∀ nm j, lookupA ps nm = some j ↔
        (j < k ∧ nm ∈ outsAt specs j ∧ ∀ i' < j, nm ∉ outsAt specs i')) →
      ∃ ps' cs', scanUnits ps cs k (specs.drop k) = scanUnits ps' cs' j0 (specs.drop j0) ∧
        (∀ nm j, lookupA ps' nm = some j ↔
          (j < j0 ∧ nm ∈ outsAt specs j ∧ ∀ i' < j, nm ∉ outsAt specs i')) := by
  intro fuel
  induction fuel with
  | zero =>
    intro k ps cs hfuel hk hps
    have hkj : k = j0 := by omega
    subst hkj
    exact ⟨ps, cs, rfl, hps⟩
  | succ f ihf =>
    intro k ps cs hfuel hk hps
    by_cases hkj : k = j0
    · subst hkj
      exact ⟨ps, cs, rfl, hps⟩
    · have hklt : k < j0 := by omega
      have hklen : k < specs.length := by omega
      have hu : specs[k] = (insAt specs k, outsAt specs k) := by
        unfold insAt outsAt
        rw [List.getD_eq_getElem _ _ hklen]
      have hnoerr : ∀ nm ∈ outsAt specs k, ∀ j, lookupA ps nm = some j → j = k := by
        intro nm hm j hj
        obtain ⟨hjk, hjo, _⟩ := (hps nm j).mp hj
        exact absurd hjo (hfirstj k hklt nm hm j hjk)
      obtain ⟨ps2, hok, hchar⟩ := addOutputs_ok hnoerr
      have hps2 : ∀ nm j, lookupA ps2 nm = some j ↔
          (j < k + 1 ∧ nm ∈ outsAt specs j ∧ ∀ i' < j, nm ∉ outsAt specs i') := by
        intro nm j
        rw [hchar nm]
        cases hlp : lookupA ps nm with
        | some j' =>
          obtain ⟨hj'k, hj'o, hj'first⟩ := (hps nm j').mp hlp
          simp only [Option.orElse, Option.some.injEq]
          constructor
          · rintro rfl
            exact ⟨by omega, hj'o, hj'first⟩
          · rintro ⟨hjk, hjo, hjfirst⟩
            rcases Nat.lt_trichotomy j j' with hlt | heq | hgt
            · exact absurd hjo (hj'first j hlt)
            · exact heq.symm
            · exact absurd hj'o (hjfirst j' hgt)
        | none =>
          simp only [Option.orElse]
          by_cases hmem : nm ∈ outsAt specs k
          · rw [if_pos hmem]
            simp only [Option.some.injEq]
            have hnone : ∀ i' < k, nm ∉ outsAt specs i' := by
              intro i' hi' hmem'
              have hex : ∃ t, t < k ∧ nm ∈ outsAt specs t := ⟨i', hi', hmem'⟩
              have hts := Nat.find_spec hex
              have := (hps nm (Nat.find hex)).mpr
                ⟨hts.1, hts.2, fun m hm hmm =>
                  Nat.find_min hex hm ⟨by omega, hmm⟩⟩
              rw [hlp] at this
              cases this
            constructor
            · rintro rfl
              exact ⟨by omega, hmem, hnone⟩
            · rintro ⟨hjk, hjo, hjfirst⟩
              by_cases hjk' : j = k
              · exact hjk'.symm
              · exact absurd hjo (hnone j (by omega))
          · rw [if_neg hmem]
            constructor
            · rintro h
              cases h
            · rintro ⟨hjk, hjo, hjfirst⟩
              exfalso
              by_cases hjk' : j = k
              · rw [hjk'] at hjo
                exact hmem hjo
              · have := (hps nm j).mpr ⟨by omega, hjo, hjfirst⟩
                rw [hlp] at this
                cases this
      rw [List.drop_eq_getElem_cons hklen, hu]
      have hstep : scanUnits ps cs k
          ((insAt specs k, outsAt specs k) :: specs.drop (k + 1)) =
          scanUnits ps2 (addConsumers k cs (insAt specs k)) (k + 1) (specs.drop (k + 1)) := by
        simp only [scanUnits, hok]
      rw [hstep]
      exact ihf (k + 1) ps2 (addConsumers k cs (insAt specs k)) (by omega) (by omega) hps2

/-- The error path of `build_dependency_graph`: given the first collision
unit `j0`, the first colliding name `nm0` within its output list, and the
first producer `i0` of that name, the scan raises exactly
`OutputRedefinitionError({i0, j0}, nm0)`. -/
lemma build_error_char (specs : List IOSpec) (i0 j0 : Nat) (nm0 : String)
    (pre post : List String)
    (hij : i0 < j0) (hj0 : j0 < specs.length)
    (hi0 : nm0 ∈ outsAt specs i0)
    (hfirsti : ∀ i' < i0, nm0 ∉ outsAt specs i')
    (hfirstj : ∀ j' < j0, ∀ nm ∈ outsAt specs j', ∀ i' < j', nm ∉ outsAt specs i')
    (hsplit : outsAt specs j0 = pre ++ nm0 :: post)
    (hpre : ∀ nm' ∈ pre, ∀ i' < j0, nm' ∉ outsAt specs i') :
    build_dependency_graph specs = .error ({i0, j0}, nm0) := by
  obtain ⟨ps', cs', hscan, hchar⟩ := scanUnits_first_producer specs j0 hfirstj (by omega)
    j0 0 [] [] (by omega) (by omega)
    (fun nm j => by rw [lookupA_nil]; simp)
  rw [List.drop_zero] at hscan
  have herr : addOutputs j0 ps' (outsAt specs j0) = .error ({i0, j0}, nm0) := by
    rw [hsplit]
    refine addOutputs_error ?_ ?_ (by omega)
    · intro nm' hm' j hj
      obtain ⟨hjk, hjo, _⟩ := (hchar nm' j).mp hj
      exact absurd hjo (hpre nm' hm' j hjk)
    · exact (hchar nm0 i0).mpr ⟨hij, hi0, hfirsti⟩
  have hu : specs[j0] = (insAt specs j0, outsAt specs j0) := by
    unfold insAt outsAt
    rw [List.getD_eq_getElem _ _ hj0]
  have hfin : scanUnits ps' cs' j0 (specs.drop j0) = .error ({i0, j0}, nm0) := by
    rw [List.drop_eq_getElem_cons hj0, hu]
    simp only [scanUnits, herr]
  simp only [build_dependency_graph, hscan, hfin]

/-- C4: whenever two distinct units declare a common output name,
`build_dependency_graph` raises `OutputRedefinitionError` as soon as the
second producer is encountered in the in-order scan — at the first
offending unit `j0`, on the first of its output names `nm0` already owned
by an earlier unit — carrying that name and the index set `{i0, j0}` of
the units seen so far that declare it (the first producer and the newly
found conflicting unit); the error does not depend on any unit's input
names. -/
theorem build_dependency_graph_collision (specs : List IOSpec)
    (hex : ∃ i j nm, i < j ∧ j < specs.length ∧
      nm ∈ outsAt specs i ∧ nm ∈ outsAt specs j) :
    ∃ i0 j0 nm0,
      build_dependency_graph specs = .error ({i0, j0}, nm0) ∧
      i0 < j0 ∧ j0 < specs.length ∧
      nm0 ∈ outsAt specs i0 ∧ nm0 ∈ outsAt specs j0 ∧
      (∀ i' < i0, nm0 ∉ outsAt specs i') ∧
      (∀ j' < j0, ∀ nm ∈ outsAt specs j', ∀ i' < j', nm ∉ outsAt specs i') ∧
      (∃ pre post, outsAt specs j0 = pre ++ nm0 :: post ∧
        ∀ nm' ∈ pre, ∀ i' < j0, nm' ∉ outsAt specs i') ∧
      (∀ specs' : List IOSpec, specs'.map Prod.snd = specs.map Prod.snd →
        build_dependency_graph specs' = .error ({i0, j0}, nm0)) := by
  have hexQ : ∃ j, j < specs.length ∧ ∃ nm ∈ outsAt specs j, ∃ i < j, nm ∈ outsAt specs i := by
    obtain ⟨i, j, nm, hij, hjlen, hni, hnj⟩ := hex
    exact ⟨j, hjlen, nm, hnj, i, hij, hni⟩
  set j0 := Nat.find hexQ with hj0def
  obtain ⟨hj0len, hQ⟩ := Nat.find_spec hexQ
  have hfirstj : ∀ j' < j0, ∀ nm ∈ outsAt specs j', ∀ i' < j', nm ∉ outsAt specs i' := by
    intro j' hj' nm hnm i' hi' hmem
    exact Nat.find_min hexQ hj' ⟨by omega, nm, hnm, i', hi', hmem⟩
  obtain ⟨pre, nm0, post, hsplit, hR, hpre⟩ :=
    first_satisfying_split (P := fun nm => ∃ i < j0, nm ∈ outsAt specs i)
      (outsAt specs j0) hQ
  have hexP : ∃ i, i < j0 ∧ nm0 ∈ outsAt specs i := by
    obtain ⟨i, hi, hmem⟩ := hR
    exact ⟨i, hi, hmem⟩
  set i0 := Nat.find hexP with hi0def
  obtain ⟨hi0lt, hi0mem⟩ := Nat.find_spec hexP
  have hfirsti : ∀ i' < i0, nm0 ∉ outsAt specs i' := by
    intro i' hi' hmem
    exact Nat.find_min hexP hi' ⟨by omega, hmem⟩
  have hpre' : ∀ nm' ∈ pre, ∀ i' < j0, nm' ∉ outsAt specs i' := by
    intro nm' hm' i' hi' hmem
    exact hpre nm' hm' ⟨i', hi', hmem⟩
  have hnm0j : nm0 ∈ outsAt specs j0 := by
    rw [hsplit]
    simp
  refine ⟨i0, j0, nm0,
    build_error_char specs i0 j0 nm0 pre post hi0lt hj0len hi0mem hfirsti hfirstj hsplit hpre',
    hi0lt, hj0len, hi0mem, hnm0j, hfirsti, hfirstj, ⟨pre, post, hsplit, hpre'⟩, ?_⟩
  intro specs' hmap
  have hlen : specs'.length = specs.length := by
    have := congrArg List.length hmap
    simpa using this
  have ho := outsAt_congr hmap
  refine build_error_char specs' i0 j0 nm0 pre post hi0lt (by omega) ?_ ?_ ?_ ?_ ?_
  · rw [ho]
    exact hi0mem
  · intro i' hi'
    rw [ho]
    exact hfirsti i' hi'
  · intro j' hj' nm hnm i' hi'
    rw [ho] at hnm ⊢
    exact hfirstj j' hj' nm hnm i' hi'
  · rw [ho]
    exact hsplit
  · intro nm' hm' i' hi'
    rw [ho]
    exact hpre' nm' hm' i' hi'

theorem build_dependency_graph_collision_witness :
    build_dependency_graph [(["x"], ["output"]), (["y"], ["output"])] =
        .error ({0, 1}, "output") ∧
      ∃ i0 j0 nm0,
        build_dependency_graph [(["x"], ["output"]), (["y"], ["output"])] =
          .error ({i0, j0}, nm0) ∧ i0 < j0 := by
  refine ⟨by rfl, ?_⟩
  obtain ⟨i0, j0, nm0, herr, hij, _⟩ :=
    build_dependency_graph_collision [(["x"], ["output"]), (["y"], ["output"])]
      ⟨0, 1, "output", by decide, by decide, by decide, by decide⟩
  exact ⟨i0, j0, nm0, herr, hij⟩

/-- A Python dict of named values in insertion order (`Dict[str, V]`). -/
abbrev Dict (V : Type) := List (String × V)

/-- `d[k] = v` on a Python dict: replace the value at an existing key in
place, else append at the end. -/
def dictSet {V : Type} (d : Dict V) (k : String) (v : V) : Dict V :=
  if (d.find? (fun p => p.1 == k)).isSome then
    d.map (fun p => if p.1 == k then (p.1, v) else p)
  else d ++ [(k, v)]

/-- `d.update(other)`: merge key by key in `other`'s insertion order. -/
def dictUpdate {V : Type} (d other : Dict V) : Dict V :=
  other.foldl (fun d p => dictSet d p.1 p.2) d

/-- The unit tree of `piece.py` / `composite.py`: a leaf is an opaque
concrete `Piece` (a tag standing for its Python class, its declared input
and output names, and its pure `compute` function — the unit contract);
`comp` is an already-constructed `Composite` holding its name and its
components in the stored (topologically sorted) order. -/
inductive Piece (V : Type) where
  | leaf (tag : Nat) (ins outs : List String) (f : Dict V → Dict V)
  | comp (name : String) (components : List (Piece V))

mutual

/-- `Piece.inputs`; for a composite this is the cached
`self._inputs = tuple(i for piece in self._components for i in piece.inputs())`. -/
def Piece.inputs {V : Type} : Piece V → List String
  | .leaf _ ins _ _ => ins
  | .comp _ cs => inputsList cs

def inputsList {V : Type} : List (Piece V) → List String
  | [] => []
  | c :: rest => c.inputs ++ inputsList rest

end

mutual

/-- `Piece.outputs`; for a composite the cached flattened outputs. -/
def Piece.outputs {V : Type} : Piece V → List String
  | .leaf _ _ outs _ => outs
  | .comp _ cs => outputsList cs

def outputsList {V : Type} : List (Piece V) → List String
  | [] => []
  | c :: rest => c.outputs ++ outputsList rest

end

mutual

/-- `compute` of a unit. A leaf applies its opaque function. A composite
runs `Composite.forward` (composite.py lines 100-106): seed the working
dict from the caller's inputs (`cumulative_inputs = dict(inputs)` — in
this value semantics the same bindings; the aliasing content of that copy
is modelled separately by `forwardH`), then for each stored component
merge its outputs into both the working dict and the output accumulator,
returning only the accumulated outputs. -/
def Piece.compute {V : Type} : Piece V → Dict V → Dict V
  | .leaf _ _ _ f, d => f d
  | .comp _ cs, d => (computeFold cs d []).2

/-- The component loop of `Composite.forward`: the state is
`(cumulative_inputs, outputs)`. -/
def computeFold {V : Type} : List (Piece V) → Dict V → Dict V → Dict V × Dict V
  | [], cum, out => (cum, out)
  | c :: rest, cum, out =>
    computeFold rest (dictUpdate cum (c.compute cum)) (dictUpdate out (c.compute cum))

end

/-- `Composite.forward` as a standalone function of the stored component
list. -/
def forward {V : Type} (cs : List (Piece V)) (d : Dict V) : Dict V :=
  (computeFold cs d []).2

/-- Composite-construction errors of `composite.py` (the human-readable
component names derived from `str(component)` of a torch module are not
modelled): the composite's name plus the payload of the underlying
`computation_graph` error. -/
inductive CompositeError where
  | outputRedefinition (compositeName : String) (indices : Finset Nat)
      (redefinedOutput : String)
  | cyclicDependency (compositeName : String) (indices : Finset Nat)

/-- `Composite.__init__` (composite.py lines 57-80): build the dependency
graph from the components' IO specs, topologically sort it, and store the
components in sorted order
(`self._components = [components[i] for i in sorted_indices]`); errors
from the builder/sorter become composite-scoped errors. -/
def mkComposite {V : Type} (name : String) (components : List (Piece V)) :
    Except CompositeError (Piece V) :=
  match build_dependency_graph (components.map (fun c => (c.inputs, c.outputs))) with
  | .error e => .error (.outputRedefinition name e.1 e.2)
  | .ok g =>
    match topological_sort g with
    | .error idxs => .error (.cyclicDependency name idxs)
    | .ok order => .ok (.comp name (order.map (fun i => components.getD i (.comp "" []))))

/-- `isinstance(component, Composite)`. -/
def Piece.isComp {V : Type} : Piece V → Bool
  | .leaf .. => false
  | .comp .. => true

mutual

/-- `Composite.extract` (composite.py lines 108-124), with the
`isinstance(component, component_type)` test abstracted as a Boolean
predicate `p`: a matching component is collected; a non-matching nested
composite is searched recursively; any other component is skipped. -/
def Piece.extract {V : Type} (p : Piece V → Bool) : Piece V → List (Piece V)
  | .leaf .. => []
  | .comp _ cs => extractFrom p cs

def extractFrom {V : Type} (p : Piece V → Bool) : List (Piece V) → List (Piece V)
  | [] => []
  | c :: rest =>
    (if p c then [c] else if c.isComp then Piece.extract p c else []) ++ extractFrom p rest

end

/-- `isinstance(c, T)` for a leaf component class `T` (identified here by
its tag): a composite is never an instance of a leaf class. -/
def matchesTag {V : Type} (t : Nat) : Piece V → Bool
  | .leaf t' _ _ _ => t == t'
  | .comp _ _ => false

mutual

/-- All leaf units reachable from a piece, nested composites flattened
depth-first in stored order. -/
def deepLeaves {V : Type} : Piece V → List (Piece V)
  | .leaf t ins outs f => [.leaf t ins outs f]
  | .comp _ cs => deepLeavesList cs

def deepLeavesList {V : Type} : List (Piece V) → List (Piece V)
  | [] => []
  | c :: rest => deepLeaves c ++ deepLeavesList rest

end

/-- A heap of Python dict objects, indexed by address; it makes the
aliasing behavior of `Composite.forward` observable: line 100's
`cumulative_inputs = dict(inputs)` allocates a fresh cell initialized
with the caller's bindings, and every later
`cumulative_inputs.update(...)` mutates that fresh cell — never the
caller's. -/
abbrev Heap (V : Type) := List (Dict V)

mutual

/-- `piece(arg)` where `arg` is the dict object at address `a`: a leaf
reads the bindings and returns fresh output bindings (leaf units are
opaque pure functions per the unit contract); a nested composite runs
`forward` against the passed-in object. -/
def computeH {V : Type} : Piece V → Heap V → Nat → Heap V × Dict V
  | .leaf _ _ _ f, h, a => (h, f (h.getD a []))
  | .comp _ cs, h, a => forwardGo cs h.length (h ++ [h.getD a []]) []

/-- The component loop of `Composite.forward` against the heap: call the
piece on the working dict's address `cum`, then
`cumulative_inputs.update(piece_outputs)` (mutate the cell at `cum`) and
`outputs.update(piece_outputs)` (the local accumulator). -/
def forwardGo {V : Type} : List (Piece V) → Nat → Heap V → Dict V → Heap V × Dict V
  | [], _, h, out => (h, out)
  | c :: rest, cum, h, out =>
    forwardGo rest cum
      ((computeH c h cum).1.set cum
        (dictUpdate ((computeH c h cum).1.getD cum []) (computeH c h cum).2))
      (dictUpdate out (computeH c h cum).2)

end

/-- `Composite.forward` (lines 100-106) against the heap, called with the
caller's dict at address `a`: allocate the working dict as a copy of the
caller's bindings, then run the component loop. -/
def forwardH {V : Type} (cs : List (Piece V)) (h : Heap V) (a : Nat) : Heap V × Dict V :=
  forwardGo cs h.length (h ++ [h.getD a []]) []

/-- The key set of a dict. -/
def dictKeys {V : Type} (d : Dict V) : Finset String := (d.map Prod.fst).toFinset

/-- The union of the key sets actually produced by the components during
a run of the forward loop started on working dict `cum` — the spec-side
reading of "the returned mapping contains exactly the union of the
components' produced outputs". -/
def runKeys {V : Type} : List (Piece V) → Dict V → Finset String
  | [], _ => ∅
  | c :: rest, cum => dictKeys (c.compute cum) ∪ runKeys rest (dictUpdate cum (c.compute cum))

lemma lookupA_isSome_iff {α : Type} {l : List (String × α)} {k : String} :
    (lookupA l k).isSome ↔ k ∈ l.map Prod.fst := by
  cases h : lookupA l k with
  | none =>
    simp only [Option.isSome_none, Bool.false_eq_true, false_iff]
    exact lookupA_none_iff.mp h
  | some v =>
    simp only [Option.isSome_some, true_iff]
    exact List.mem_map.mpr ⟨(k, v), mem_of_lookupA h, rfl⟩

lemma dictSet_pos {V : Type} {d : Dict V} {k : String} {v : V}
    (h : (lookupA d k).isSome) :
    dictSet d k v = d.map (fun p => if p.1 == k then (p.1, v) else p) := by
  unfold dictSet
  rw [if_pos (by unfold lookupA at h; simpa using h)]

lemma dictSet_neg {V : Type} {d : Dict V} {k : String} {v : V}
    (h : lookupA d k = none) :
    dictSet d k v = d ++ [(k, v)] := by
  have hf : d.find? (fun p => p.1 == k) = none := by
    unfold lookupA at h
    cases hf : d.find? (fun p => p.1 == k) with
    | none => rfl
    | some p => rw [hf] at h; cases h
  unfold dictSet
  rw [if_neg (by simp [hf])]

lemma dictSet_map_keys {V : Type} (d : Dict V) (k : String) (v : V) :
    (d.map (fun p => if p.1 == k then (p.1, v) else p)).map Prod.fst = d.map Prod.fst := by
  induction d with
  | nil => rfl
  | cons p d ih =>
    simp only [List.map_cons, ih]
    by_cases hh : p.1 = k
    · rw [if_pos (by simpa using hh)]
    · rw [if_neg (by simpa using hh)]

lemma dictKeys_set {V : Type} (d : Dict V) (k : String) (v : V) :
    dictKeys (dictSet d k v) = insert k (dictKeys d) := by
  cases h : lookupA d k with
  | some w =>
    rw [dictSet_pos (by rw [h]; rfl)]
    unfold dictKeys
    rw [dictSet_map_keys]
    have hk : k ∈ d.map Prod.fst :=
      List.mem_map.mpr ⟨(k, w), mem_of_lookupA h, rfl⟩
    rw [Finset.insert_eq_self.mpr (List.mem_toFinset.mpr hk)]
  | none =>
    rw [dictSet_neg h]
    unfold dictKeys
    refine Finset.ext fun x => ?_
    simp [or_comm]

lemma dictKeys_update {V : Type} (o d : Dict V) :
    dictKeys (dictUpdate d o) = dictKeys d ∪ dictKeys o := by
  induction o generalizing d with
  | nil => simp [dictUpdate, dictKeys]
  | cons p o ih =>
    have hstep : dictUpdate d (p :: o) = dictUpdate (dictSet d p.1 p.2) o := rfl
    rw [hstep, ih, dictKeys_set]
    have hko : dictKeys (p :: o) = insert p.1 (dictKeys o) := by
      unfold dictKeys
      simp
    rw [hko, Finset.insert_union, Finset.union_insert]

lemma computeFold_keys {V : Type} :
    ∀ (cs : List (Piece V)) (cum out : Dict V),
      dictKeys (computeFold cs cum out).2 = dictKeys out ∪ runKeys cs cum := by
  intro cs
  induction cs with
  | nil =>
    intro cum out
    simp [computeFold, runKeys]
  | cons c rest ih =>
    intro cum out
    rw [computeFold, ih, runKeys, dictKeys_update, Finset.union_assoc]

/-- Inverting a successful `mkComposite`: the stored piece is the
composite of the topologically reordered components. -/
lemma mkComposite_ok_inv {V : Type} {name : String} {cs : List (Piece V)} {p : Piece V}
    (h : mkComposite name cs = .ok p) :
    ∃ g order,
      build_dependency_graph (cs.map (fun c => (c.inputs, c.outputs))) = .ok g ∧
      topological_sort g = .ok order ∧
      p = .comp name (order.map (fun i => cs.getD i (.comp "" []))) := by
  unfold mkComposite at h
  cases hb : build_dependency_graph (cs.map (fun c => (c.inputs, c.outputs))) with
  | error e =>
    simp only [hb] at h
    cases h
  | ok g =>
    simp only [hb] at h
    cases hs : topological_sort g with
    | error idxs =>
      simp only [hs] at h
      cases h
    | ok order =>
      simp only [hs] at h
      cases h
      exact ⟨g, order, rfl, hs, rfl⟩

/-- Frame property of the heap semantics, by strong induction on the
size of the piece / component list: a piece invoked on address `a` never
changes a pre-existing cell, and the component loop never changes a
pre-existing cell other than its own working cell `cum`; the heap only
grows. -/
lemma heap_frame {V : Type} :
    ∀ n : Nat,
      (∀ (p : Piece V) (h : Heap V) (a b : Nat), sizeOf p ≤ n → b < h.length →
        (computeH p h a).1.getD b [] = h.getD b [] ∧
          h.length ≤ (computeH p h a).1.length) ∧
      (∀ (cs : List (Piece V)) (cum : Nat) (h : Heap V) (out : Dict V) (b : Nat),
        sizeOf cs ≤ n → b < h.length → b ≠ cum →
        (forwardGo cs cum h out).1.getD b [] = h.getD b [] ∧
          h.length ≤ (forwardGo cs cum h out).1.length) := by
  intro n
  induction n using Nat.strong_induction_on with
  | _ n ih =>
    constructor
    · intro p h a b hsz hb
      cases p with
      | leaf t ins outs f => exact ⟨rfl, le_refl _⟩
      | comp nm cs =>
        have hcs : sizeOf cs < n := by
          have hlt : sizeOf cs < sizeOf (Piece.comp nm cs) := by
            simp
            try omega
          omega
        have hb' : b < (h ++ [h.getD a []]).length := by
          simp
          omega
        obtain ⟨h1, h2⟩ := (ih (sizeOf cs) hcs).2 cs h.length (h ++ [h.getD a []]) [] b
          (le_refl _) hb' (by omega)
        have heq : computeH (Piece.comp nm cs) h a =
            forwardGo cs h.length (h ++ [h.getD a []]) [] := by
          rw [computeH]
        rw [heq]
        constructor
        · rw [h1, List.getD_append _ _ _ _ hb]
        · have hl : (h ++ [h.getD a []]).length = h.length + 1 := by simp
          omega
    · intro cs cum h out b hsz hb hbc
      cases cs with
      | nil => exact ⟨rfl, le_refl _⟩
      | cons c rest =>
        have hc : sizeOf c < n := by
          have hlt : sizeOf c < sizeOf (c :: rest) := by
            simp
            try omega
          omega
        have hrest : sizeOf rest < n := by
          have hlt : sizeOf rest < sizeOf (c :: rest) := by
            simp
            try omega
          omega
        obtain ⟨hc1, hc2⟩ := (ih (sizeOf c) hc).1 c h cum b (le_refl _) hb
        have hb2 : b < ((computeH c h cum).1.set cum
            (dictUpdate ((computeH c h cum).1.getD cum []) (computeH c h cum).2)).length := by
          rw [List.length_set]
          omega
        obtain ⟨hr1, hr2⟩ := (ih (sizeOf rest) hrest).2 rest cum
          ((computeH c h cum).1.set cum
            (dictUpdate ((computeH c h cum).1.getD cum []) (computeH c h cum).2))
          (dictUpdate out (computeH c h cum).2) b (le_refl _) hb2 hbc
        rw [forwardGo]
        constructor
        · rw [hr1, getD_set_ne hbc, hc1]
        · rw [List.length_set] at hr2
          omega

/-- C7: `Composite.forward` works on a copy of the caller's mapping:
for every component list, every heap, and every address `a` holding the
caller's dict, the object at `a` holds exactly the same bindings after
the call as before — no component write is visible to the caller. -/
theorem composite_forward_preserves_caller (V : Type) (cs : List (Piece V))
    (h : Heap V) (a : Nat) (ha : a < h.length) :
    (forwardH cs h a).1.getD a [] = h.getD a [] := by
  unfold forwardH
  have hb : a < (h ++ [h.getD a []]).length := by
    simp
    omega
  obtain ⟨h1, _⟩ := (heap_frame (sizeOf cs)).2 cs h.length (h ++ [h.getD a []]) [] a
    (le_refl _) hb (by omega)
  rw [h1, List.getD_append _ _ _ _ ha]

theorem composite_forward_preserves_caller_witness :
    (forwardH [Piece.leaf 0 ["a"] ["b"] (fun d => [("b", (lookupA d "a").getD 0 + 1)])]
        [[("a", (5 : Nat))]] 0).1.getD 0 [] = [[("a", (5 : Nat))]].getD 0 [] :=
  composite_forward_preserves_caller Nat _ _ 0 (by decide)

/-- Extraction by leaf class over arbitrary nesting equals filtering the
depth-first flattening of the component tree. -/
lemma extract_deep {V : Type} (t : Nat) :
    ∀ n : Nat, ∀ cs : List (Piece V), sizeOf cs ≤ n →
      extractFrom (matchesTag t) cs = (deepLeavesList cs).filter (matchesTag t) := by
  intro n
  induction n using Nat.strong_induction_on with
  | _ n ih =>
    intro cs hsz
    cases cs with
    | nil => rfl
    | cons c rest =>
      have hrest : sizeOf rest < n := by
        have hlt : sizeOf rest < sizeOf (c :: rest) := by
          simp
          try omega
        omega
      rw [extractFrom, deepLeavesList, List.filter_append,
        ih (sizeOf rest) hrest rest (le_refl _)]
      congr 1
      cases c with
      | leaf t' ins outs f =>
        by_cases hm : matchesTag t (Piece.leaf t' ins outs f) = true
        · rw [if_pos hm, deepLeaves, List.filter_cons, if_pos hm]
          rfl
        · rw [if_neg hm, deepLeaves, List.filter_cons, if_neg hm]
          have hic : (Piece.leaf t' ins outs f : Piece V).isComp = false := rfl
          rw [if_neg (by rw [hic]; exact fun hh => by cases hh)]
          rfl
      | comp nm' cs' =>
        have hm : ¬(matchesTag t (Piece.comp nm' cs') = true) := by
          intro hh
          cases hh
        rw [if_neg hm, if_pos (by rfl), Piece.extract, deepLeaves]
        have hcs' : sizeOf cs' < n := by
          have h1 : sizeOf cs' < sizeOf (Piece.comp nm' cs') := by
            simp
            try omega
          have h2 : sizeOf (Piece.comp nm' cs') < sizeOf (Piece.comp nm' cs' :: rest) := by
            simp
            try omega
          omega
        exact ih (sizeOf cs') hcs' cs' (le_refl _)

/-- C8: on a composite, `extract` with a leaf component class returns the
matching leaves of the whole component tree — recursing into nested
composites (which never match a leaf class) instead of returning them —
in left-to-right depth-first discovery order over the stored components. -/
theorem extract_recurses_into_nested (V : Type) (t : Nat) (name : String)
    (cs : List (Piece V)) :
    Piece.extract (matchesTag t) (Piece.comp name cs) =
      (deepLeavesList cs).filter (matchesTag t) := by
  rw [Piece.extract]
  exact extract_deep t (sizeOf cs) cs (le_refl _)

/-- Example leaf unit `ab`: consumes `a`, produces `b = f(a) = a + 1`. -/
def unitAB : Piece Nat :=
  .leaf 0 ["a"] ["b"] (fun d => [("b", (lookupA d "a").getD 0 + 1)])

/-- Example leaf unit `bc`: consumes `b`, produces `c = g(b) = b * 2`. -/
def unitBC : Piece Nat :=
  .leaf 1 ["b"] ["c"] (fun d => [("c", (lookupA d "b").getD 0 * 2)])

/-- Example leaf unit `cd`: consumes `c`, produces `d = h(c) = c + 10`. -/
def unitCD : Piece Nat :=
  .leaf 2 ["c"] ["d"] (fun d => [("d", (lookupA d "c").getD 0 + 10)])

/-- Build a composite from the components and run its `compute` on the
given inputs (`none` when construction fails). -/
def runComposite (cs : List (Piece Nat)) (d : Dict Nat) : Option (Dict Nat) :=
  match mkComposite "t" cs with
  | .ok p => some (p.compute d)
  | .error _ => none

/-- Build a composite and report its flattened `inputs()` (`none` when
construction fails) — this exposes the stored component order. -/
def compositeInputs (cs : List (Piece Nat)) : Option (List String) :=
  match mkComposite "t" cs with
  | .ok p => some p.inputs
  | .error _ => none

/-- C6: for an acyclic, non-conflicting component set the constructor
stores the components in topologically sorted order; executing the
composite threads outputs forward and the returned mapping holds exactly
the union of the outputs the components produced — caller-supplied input
names appear only if re-emitted. In particular the chain
`ab(a→b), bc(b→c), cd(c→d)` supplied in any of the six orders is
reordered to `ab, bc, cd` (visible through the flattened `inputs()`), and
computing on `{a: 5}` yields `{b: 6, c: 12, d: 22}` — without the key
`a`. -/
theorem composite_sorts_and_returns_only_outputs :
    (∀ (V : Type) (name : String) (cs : List (Piece V)) (p : Piece V),
      mkComposite name cs = .ok p →
      ∃ g order,
        build_dependency_graph (cs.map (fun c => (c.inputs, c.outputs))) = .ok g ∧
        topological_sort g = .ok order ∧
        p = .comp name (order.map (fun i => cs.getD i (.comp "" [])))) ∧
    (∀ (V : Type) (cs : List (Piece V)) (d : Dict V),
      dictKeys (forward cs d) = runKeys cs d ∧
      ∀ k ∈ dictKeys d, k ∉ runKeys cs d → k ∉ dictKeys (forward cs d)) ∧
    (∀ cs ∈ [[unitAB, unitBC, unitCD], [unitAB, unitCD, unitBC], [unitBC, unitAB, unitCD],
        [unitBC, unitCD, unitAB], [unitCD, unitAB, unitBC], [unitCD, unitBC, unitAB]],
      compositeInputs cs = some ["a", "b", "c"] ∧
      runComposite cs [("a", 5)] = some [("b", 6), ("c", 12), ("d", 22)]) := by
  refine ⟨?_, ?_, ?_⟩
  · intro V name cs p h
    exact mkComposite_ok_inv h
  · intro V cs d
    have hk : dictKeys (forward cs d) = runKeys cs d := by
      unfold forward
      rw [computeFold_keys]
      simp [dictKeys]
    refine ⟨hk, ?_⟩
    intro k _ hnot
    rw [hk]
    exact hnot
  · intro cs hcs
    simp only [List.mem_cons, List.not_mem_nil, or_false] at hcs
    rcases hcs with rfl | rfl | rfl | rfl | rfl | rfl <;> exact ⟨rfl, rfl⟩

theorem composite_sorts_and_returns_only_outputs_witness :
    (∃ g order,
      build_dependency_graph ([unitCD, unitBC, unitAB].map (fun c => (c.inputs, c.outputs))) =
        .ok g ∧
      topological_sort g = .ok order ∧
      (Piece.comp "t" [unitAB, unitBC, unitCD] : Piece Nat) =
        .comp "t" (order.map (fun i => [unitCD, unitBC, unitAB].getD i (.comp "" [])))) ∧
    runComposite [unitCD, unitBC, unitAB] [("a", 5)] =
      some [("b", 6), ("c", 12), ("d", 22)] := by
  constructor
  · exact composite_sorts_and_returns_only_outputs.1 Nat "t" [unitCD, unitBC, unitAB] _
      (by rfl)
  · exact (composite_sorts_and_returns_only_outputs.2.2 [unitCD, unitBC, unitAB]
      (List.mem_cons_of_mem _ (List.mem_cons_of_mem _ (List.mem_cons_of_mem _
        (List.mem_cons_of_mem _ (List.mem_cons_of_mem _ (List.mem_cons_self _ _))))))).2

/-- C9: every successfully constructed composite satisfies the unit
contract of its parts: it is itself a `Piece` exposing `inputs()` and
`outputs()` as the flattened name sequences of its (topologically sorted)
stored components, and a `compute` from a mapping of names to values to a
mapping of names to values — the threaded execution of its components —
so it can be used wherever a unit is expected, including as a component
of another composite. -/
theorem composite_satisfies_unit_contract (V : Type) (name : String)
    (cs : List (Piece V)) (p : Piece V) (h : mkComposite name cs = .ok p) :
    ∃ comps, p = .comp name comps ∧
      p.inputs = inputsList comps ∧
      p.outputs = outputsList comps ∧
      (∀ d, p.compute d = (computeFold comps d []).2) ∧
      ∃ g order,
        build_dependency_graph (cs.map (fun c => (c.inputs, c.outputs))) = .ok g ∧
        topological_sort g = .ok order ∧
        comps = order.map (fun i => cs.getD i (.comp "" [])) := by
  obtain ⟨g, order, hb, hs, hp⟩ := mkComposite_ok_inv h
  subst hp
  exact ⟨order.map (fun i => cs.getD i (.comp "" [])), rfl, rfl, rfl, fun d => rfl,
    g, order, hb, hs, rfl⟩

theorem composite_satisfies_unit_contract_witness :
    ∃ comps, (Piece.comp "t" [unitAB, unitBC, unitCD] : Piece Nat) = .comp "t" comps ∧
      (Piece.comp "t" [unitAB, unitBC, unitCD] : Piece Nat).inputs = inputsList comps ∧
      (Piece.comp "t" [unitAB, unitBC, unitCD] : Piece Nat).outputs = outputsList comps ∧
      (∀ d, (Piece.comp "t" [unitAB, unitBC, unitCD] : Piece Nat).compute d =
        (computeFold comps d []).2) ∧
      ∃ g order,
        build_dependency_graph ([unitBC, unitAB, unitCD].map (fun c => (c.inputs, c.outputs))) =
          .ok g ∧
        topological_sort g = .ok order ∧
        comps = order.map (fun i => [unitBC, unitAB, unitCD].getD i (.comp "" [])) :=
  composite_satisfies_unit_contract Nat "t" [unitBC, unitAB, unitCD] _ (by rfl)

end Jigsaw
